import Mathlib

set_option maxRecDepth 40000


/-!
Verification development for the Salesforce/SharePoint file-comparison tool
(`compare_sf_sharepoint.py`).

The Python source is shallowly embedded below.  Conventions of the embedding:

* Strings are modelled as Lean `String`/`List Char`; Python's `str.lower`,
  `str.strip`, the `\s`, `\w`, `\d` regex classes and `str.isdigit` are
  modelled over their ASCII meaning (every concrete input appearing in the
  development is ASCII).
* Python floats are modelled by exact rationals (`ℚ`); `int(x)` applied to the
  non-negative score is the floor.  Where a claim's truth depends on a float
  rounding artifact this is noted next to the theorem.
* Each regex substitution of the source is embedded as a left-to-right
  scanner that, at every position, attempts the (unique, greedy, backtracking)
  match of the concrete pattern and replaces it by a single space, continuing
  after the match — the exact semantics of `re.sub` for these patterns.
* `difflib.SequenceMatcher` (called with no junk argument) is embedded with an
  empty junk set; the `autojunk` popularity heuristic, which is inert unless
  the second string has at least 200 characters, is not modelled.
* Python `set`s iterated by the engine are modelled as duplicate-free lists;
  the list order models the (arbitrary) set iteration order.  Grouping and
  candidate enumeration follow that order, exactly as `defaultdict` grouping
  does in the source.
-/

/-! ## Character classes (ASCII models of the regex classes used) -/

/-- ASCII decimal digit, the model of the regex class `\d`. -/
def isDigitC (c : Char) : Bool := '0' ≤ c && c ≤ '9'

/-- ASCII letter, the model of `[a-zA-Z]`. -/
def isAlphaC (c : Char) : Bool := ('a' ≤ c && c ≤ 'z') || ('A' ≤ c && c ≤ 'Z')

/-- ASCII lowercase letter, the model of `[a-z]`. -/
def isLowerC (c : Char) : Bool := 'a' ≤ c && c ≤ 'z'

/-- ASCII whitespace, the model of the regex class `\s` and of `str.strip`/`str.split`. -/
def isSpaceC (c : Char) : Bool :=
  c = ' ' || c = '\t' || c = '\n' || c = '\r' || c = '\x0b' || c = '\x0c'

/-- The separator class `[_\-\.\(\)\[\],;:]` of the source's separator-collapsing sub. -/
def isSepC (c : Char) : Bool :=
  c = '_' || c = '-' || c = '.' || c = '(' || c = ')' || c = '[' || c = ']' ||
  c = ',' || c = ';' || c = ':'

/-- Word character, the model of `\w` (ASCII). -/
def isWordC (c : Char) : Bool := isAlphaC c || isDigitC c || c = '_'

/-- The date-separator class `[\.\-\/]` of the delimited-date patterns. -/
def isDateSepC (c : Char) : Bool := c = '.' || c = '-' || c = '/'

/-- The separator class `[\s_\-\.]` that may follow the codename marker word. -/
def isProjSepC (c : Char) : Bool := isSpaceC c || c = '_' || c = '-' || c = '.'

/-- ASCII lower-casing, the model of `str.lower`. -/
def lowerChar (c : Char) : Char :=
  if 'A' ≤ c ∧ c ≤ 'Z' then Char.ofNat (c.toNat + 32) else c

/-- ASCII upper-casing of one character (used for Python's `str.title` on the
all-lowercase alphabetic codename). -/
def upperChar (c : Char) : Char :=
  if 'a' ≤ c ∧ c ≤ 'z' then Char.ofNat (c.toNat - 32) else c

/-- Length of the longest run of characters satisfying `p` at the head. -/
def leadCount (p : Char → Bool) : List Char → Nat
  | [] => 0
  | c :: r => if p c then leadCount p r + 1 else 0

/-! ## The eight `DATE_PATTERNS` and the separator pattern as head matchers

A matcher takes the suffix starting at the current position and returns the
length of the regex match anchored there (`none` when the pattern does not
match there).  Greediness and backtracking of the concrete patterns are
hand-compiled: each matcher was checked against `re` on randomized inputs. -/

/-- Matcher for `\d{4}` (bare year). -/
def m_year4 (s : List Char) : Option Nat :=
  if 4 ≤ leadCount isDigitC s then some 4 else none

/-- Helper: four digits immediately at position `i` of `s`? -/
def fourDigAt (s : List Char) (i : Nat) : Bool :=
  4 ≤ leadCount isDigitC (s.drop i)

/-- Helper for the month/season patterns: `\s*\d{4}` starting at offset `i`;
returns the end offset.  (`\s*` is effectively maximal here: a shorter run of
spaces leaves a space where a digit is required.) -/
def skipWsThen4 (s : List Char) (i : Nat) : Option Nat :=
  let j := i + leadCount isSpaceC (s.drop i)
  if fourDigAt s j then some (j + 4) else none

/-- Matcher for `\d{1,2}[\.\-\/]\d{1,2}[\.\-\/]\d{2,4}` (delimited date).
The quantifiers `\d{1,2}` are greedy with backtracking (try 2 then 1);
the final `\d{2,4}` is greedy with nothing after it. -/
def m_date3 (s : List Char) : Option Nat :=
  let run1 := leadCount isDigitC s
  let tryB : Nat → Option Nat := fun i2 =>
    let run2 := leadCount isDigitC (s.drop i2)
    let tryC : Nat → Option Nat := fun b =>
      if b ≤ run2 then
        let j := i2 + b
        if isDateSepC (s.getD j ' ') then
          let j2 := j + 1
          let c := min 4 (leadCount isDigitC (s.drop j2))
          if 2 ≤ c then some (j2 + c) else none
        else none
      else none
    match tryC 2 with
    | some n => some n
    | none => tryC 1
  let tryA : Nat → Option Nat := fun a =>
    if a ≤ run1 then
      if isDateSepC (s.getD a ' ') then tryB (a + 1) else none
    else none
  match tryA 2 with
  | some n => some n
  | none => tryA 1

/-- Matcher for `\d{4}[\.\-\/]\d{1,2}[\.\-\/]\d{1,2}` (year-first delimited date). -/
def m_date4 (s : List Char) : Option Nat :=
  if fourDigAt s 0 then
    if isDateSepC (s.getD 4 ' ') then
      let i2 := 5
      let run2 := leadCount isDigitC (s.drop i2)
      let tryC : Nat → Option Nat := fun b =>
        if b ≤ run2 then
          let j := i2 + b
          if isDateSepC (s.getD j ' ') then
            let j2 := j + 1
            let c := min 2 (leadCount isDigitC (s.drop j2))
            if 1 ≤ c then some (j2 + c) else none
          else none
        else none
      match tryC 2 with
      | some n => some n
      | none => tryC 1
    else none
  else none

/-- Case-insensitive literal-word test at the head (ASCII), the model of a
lowercase literal alternative under `re.IGNORECASE`. -/
def ciPref (w : List Char) (s : List Char) : Bool :=
  match w, s with
  | [], _ => true
  | _ :: _, [] => false
  | a :: w', c :: s' => lowerChar c = a && ciPref w' s'

/-- First success of `f` over a list of candidate quantifier lengths
(used for backtracking: the list is given greedy-first). -/
def firstSome (f : Nat → Option Nat) : List Nat → Option Nat
  | [] => none
  | x :: xs =>
    match f x with
    | some n => some n
    | none => firstSome f xs

/-- The descending list `[n, n-1, …, 1]` of candidate lengths for a greedy
`+`/bounded quantifier whose maximal run has length `n`. -/
def descList (n : Nat) : List Nat := (List.range n).map (fun d => n - d)

/-- Matcher for `\(\w+\s+\d{4}\)` (parenthesised month/season + year).
`\w+` and `\s+` are greedy with backtracking; the search tries the longest
runs first, exactly as the backtracking engine does. -/
def m_parenYear (s : List Char) : Option Nat :=
  match s with
  | '(' :: rest =>
    let w := leadCount isWordC rest
    let tryKs : Nat → Option Nat := fun k =>
      -- the position after '(' and k word characters is 1 + k
      let p := 1 + k
      let sp := leadCount isSpaceC (s.drop p)
      let tryMs : Nat → Option Nat := fun m =>
        let q := p + m
        if fourDigAt s q && (s.getD (q + 4) '!') = ')' then some (q + 5) else none
      firstSome tryMs (descList sp)
    firstSome tryKs (descList w)
  | _ => none

/-- The twelve full month names, in the source's alternation order. -/
def monthsFull : List (List Char) :=
  ["january".toList, "february".toList, "march".toList, "april".toList,
   "may".toList, "june".toList, "july".toList, "august".toList,
   "september".toList, "october".toList, "november".toList, "december".toList]

/-- The twelve month abbreviations, in the source's alternation order. -/
def monthsAbbr : List (List Char) :=
  ["jan".toList, "feb".toList, "mar".toList, "apr".toList, "may".toList,
   "jun".toList, "jul".toList, "aug".toList, "sep".toList, "oct".toList,
   "nov".toList, "dec".toList]

/-- The four season words of the quarter/season pattern. -/
def seasonWords : List (List Char) :=
  ["spring".toList, "summer".toList, "fall".toList, "winter".toList]

/-- First alternative of `alts` that is a (case-insensitive) literal head of
`s`, with its length.  At most one alternative of each of the three word lists
can match at a given position, so first-match equals the regex alternation. -/
def firstAlt (alts : List (List Char)) (s : List Char) : Option Nat :=
  match alts with
  | [] => none
  | w :: ws => if ciPref w s then some w.length else firstAlt ws s

/-- Matcher for `(?:january|…|december)\s*\d{4}`. -/
def m_monthFull (s : List Char) : Option Nat :=
  match firstAlt monthsFull s with
  | some i => skipWsThen4 s i
  | none => none

/-- Matcher for `(?:jan|…|dec)\.?\s*\d{4}`.  The optional dot is greedy:
the with-dot branch is tried first; if it fails and a dot is present, the
empty branch also fails (`\s*` cannot step over the dot). -/
def m_monthAbbr (s : List Char) : Option Nat :=
  match firstAlt monthsAbbr s with
  | some i =>
    if s.getD i '!' = '.' then
      match skipWsThen4 s (i + 1) with
      | some n => some n
      | none => none
    else skipWsThen4 s i
  | none => none

/-- Matcher for `(?:spring|summer|fall|winter|q[1-4])\s*[-_]?\s*\d{4}`.
As with the dot above, when a `-`/`_` is present after the first `\s*` the
non-consuming branch of `[-_]?` cannot succeed, so the matcher consumes it. -/
def m_season (s : List Char) : Option Nat :=
  let kw : Option Nat :=
    match firstAlt seasonWords s with
    | some i => some i
    | none =>
      if lowerChar (s.getD 0 '!') = 'q' &&
         (s.getD 1 '!' = '1' || s.getD 1 '!' = '2' ||
          s.getD 1 '!' = '3' || s.getD 1 '!' = '4') then some 2 else none
  match kw with
  | some k =>
    let i := k + leadCount isSpaceC (s.drop k)
    if s.getD i '!' = '-' || s.getD i '!' = '_' then skipWsThen4 s (i + 1)
    else skipWsThen4 s i
  | none => none

/-- Matcher for `[_\-\.\(\)\[\],;:]+` (separator runs). -/
def m_seps (s : List Char) : Option Nat :=
  let n := leadCount isSepC s
  if 1 ≤ n then some n else none

/-! ## `re.sub(pattern, " ", s)` as a fuelled scanner -/

/-- One `re.sub(p, " ", ·)` pass: scan left to right; at each position replace
the match (if any) by one space and continue after it, otherwise copy the
character.  `fuel` is the length of the remaining input; none of the matchers
matches the empty string, so the fuel is exact. -/
def substGo (m : List Char → Option Nat) : Nat → List Char → List Char
  | 0, _ => []
  | _ + 1, [] => []
  | fuel + 1, c :: rest =>
    match m (c :: rest) with
    | some (n + 1) => ' ' :: substGo m fuel (rest.drop n)
    | _ => c :: substGo m fuel rest

/-- `re.sub(p, " ", s)` for the matcher `m` of pattern `p`. -/
def subst (m : List Char → Option Nat) (s : List Char) : List Char :=
  substGo m s.length s

/-- `re.sub(r"\.[a-z]{2,5}$", "", s)`: strip a trailing dot + 2–5 lowercase
letters.  The `$` anchor admits at most one match: the trailing maximal
lowercase run, provided its length is 2–5 and a dot precedes it. -/
def stripExt (s : List Char) : List Char :=
  let r := s.reverse
  let k := leadCount isLowerC r
  if 2 ≤ k ∧ k ≤ 5 ∧ r.getD k '!' = '.' then s.take (s.length - (k + 1)) else s

/-! ## Whitespace split / join (`str.split`, `" ".join`, `str.strip`) -/

/-- `str.strip` (ASCII whitespace). -/
def stripWS (s : List Char) : List Char :=
  (((s.dropWhile (fun c => isSpaceC c)).reverse.dropWhile (fun c => isSpaceC c)).reverse)

/-- `str.split()` with no argument: split on whitespace runs, no empty tokens.
`acc` accumulates the current token in reverse. -/
def splitWSAux : List Char → List Char → List (List Char)
  | [], acc => if acc.isEmpty then [] else [acc.reverse]
  | c :: r, acc =>
    if isSpaceC c then
      if acc.isEmpty then splitWSAux r [] else acc.reverse :: splitWSAux r []
    else splitWSAux r (c :: acc)

/-- `str.split()` (whitespace split). -/
def splitWS (s : List Char) : List (List Char) := splitWSAux s []

/-- `" ".join(tokens)`. -/
def joinTok : List (List Char) → List Char
  | [] => []
  | [t] => t
  | t :: ts => t ++ ' ' :: joinTok ts

/-! ## The global tables of the source -/

/-- `NOISE_WORDS` from the source (a Python `set` of strings; only membership
is ever used). -/
def NOISE_WORDS : List String :=
  ["hig", "h.i.g.", "h.i.g", "capital", "management", "llc", "inc",
   "confidential", "information", "memorandum", "presentation",
   "vf", "vfinal", "final", "v1", "v2", "v3", "vs", "draft",
   "copy", "print", "redacted",
   "pdf", "docx", "xlsx", "pptx", "doc", "xls", "ppt", "msg", "xps",
   "middle", "market", "advantage", "fund", "infrastructure", "infra",
   "small", "cap", "lbo", "growth"]

/-! ## `normalize_for_fuzzy`, `extract_project_name`, `tokenize` -/

/-- The token filter of `normalize_for_fuzzy`:
`[t for t in tokens if t not in NOISE_WORDS and len(t) > 1]`. -/
def keepTok (t : List Char) : Bool :=
  !(NOISE_WORDS.contains (String.mk t)) && 1 < t.length

/-- `normalize_for_fuzzy` from the source: lowercase and strip, remove a file
extension, apply the eight `DATE_PATTERNS` substitutions in order (the first
pattern appears twice in the source list), collapse separators, then drop
noise/short tokens and re-join with single spaces. -/
def normalize_for_fuzzy (name : String) : String :=
  if name = "" then "" else
  let s := stripWS (name.toList.map lowerChar)
  let s := stripExt s
  let s := subst m_parenYear s
  let s := subst m_parenYear s
  let s := subst m_date3 s
  let s := subst m_date4 s
  let s := subst m_monthFull s
  let s := subst m_monthAbbr s
  let s := subst m_season s
  let s := subst m_year4 s
  let s := subst m_seps s
  String.mk (stripWS (joinTok ((splitWS s).filter keepTok)))

/-- The scanning part of `re.search(r"project[\s_\-\.]+([a-zA-Z]+)", name, I)`:
try each start position left to right; at a position where the literal
`project` is followed by at least one separator and at least one letter,
capture the maximal letter run; otherwise move to the next start position. -/
def extractGo : List Char → Option (List Char)
  | [] => none
  | c :: rest =>
    if ciPref "project".toList (c :: rest) then
      let r1 := (c :: rest).drop 7
      let k := leadCount isProjSepC r1
      if 1 ≤ k then
        let r2 := r1.drop k
        let a := leadCount isAlphaC r2
        if 1 ≤ a then some ((r2.take a).map lowerChar) else extractGo rest
      else extractGo rest
    else extractGo rest

/-- `extract_project_name` from the source: the captured run, lower-cased,
unless it is a noise word or shorter than 3 characters. -/
def extract_project_name (name : String) : Option String :=
  match extractGo name.toList with
  | none => none
  | some cs =>
    if NOISE_WORDS.contains (String.mk cs) ∨ cs.length < 3 then none
    else some (String.mk cs)

/-- `str.isdigit` (ASCII model): nonempty and all digits. -/
def isDigitStr (t : List Char) : Bool := !t.isEmpty && t.all isDigitC

/-- `tokenize` from the source: the set of tokens of the normalized name with
1-character and purely numeric tokens removed.  The Python `set` is modelled
as a duplicate-free list (first occurrences); only membership is ever used. -/
def tokenize (name : String) : List String :=
  let toks := ((splitWS (normalize_for_fuzzy name).toList).map String.mk).dedup
  toks.filter (fun t => 1 < t.length && !isDigitStr t.toList)

/-! ## `difflib.SequenceMatcher` (no junk)

The source computes `SequenceMatcher(None, norm_a, norm_b).ratio()`, i.e.
`2 * matches / (len(a) + len(b))` where `matches` is the total size of the
matching blocks.  `find_longest_match` is the classic dynamic programme over
`b2j` followed by extension loops; with no junk argument the junk set is
empty (the `autojunk` heuristic is inert below 200 characters and is not
modelled), so the two junk-extension loops of the source of difflib are
no-ops and only the two plain extension loops remain. -/

/-- A matching block `(i, j, size)` as returned by `find_longest_match`. -/
structure Block where
  bi : Nat
  bj : Nat
  size : Nat
deriving DecidableEq, Repr

/-- Ascending list of the positions of `c` in `b` (difflib's `b2j`). -/
def b2jPos (b : List Char) (c : Char) : List Nat :=
  (List.range b.length).filter (fun j => b.getD j '!' = c)

/-- Inner loop of the `find_longest_match` dynamic programme: process the
columns `js` of row `i`.  `j2l` is the previous row's run-length map
(`j2len`), `new` the one being built (`newj2len`), `best` the best block so
far; `k = j2len.get(j-1, 0) + 1` and the best is updated on strict
improvement only. -/
def flmRow (j2l : Nat → Nat) (i : Nat) :
    List Nat → (Nat → Nat) → Block → ((Nat → Nat) × Block)
  | [], new, best => (new, best)
  | j :: js, new, best =>
    let k := (if j = 0 then 0 else j2l (j - 1)) + 1
    let new' : Nat → Nat := fun x => if x = j then k else new x
    let best' : Block := if best.size < k then ⟨i + 1 - k, j + 1 - k, k⟩ else best
    flmRow j2l i js new' best'

/-- Row loop of `find_longest_match`: rows `i = alo, …, ahi - 1`; the fuel is
`ahi - alo`.  Columns outside `[blo, bhi)` are filtered out, exactly as the
`continue`/`break` pair does on the ascending position list. -/
def flmScan (a b : List Char) (blo bhi ahi : Nat) :
    Nat → Nat → (Nat → Nat) → Block → Block
  | 0, _, _, best => best
  | fuel + 1, i, j2l, best =>
    if i < ahi then
      let cols := (b2jPos b (a.getD i '!')).filter (fun j => blo ≤ j && j < bhi)
      let r := flmRow j2l i cols (fun _ => 0) best
      flmScan a b blo bhi ahi fuel (i + 1) r.1 r.2
    else best

/-- Backward extension loop of `find_longest_match`
(`while besti > alo and bestj > blo and a[besti-1] == b[bestj-1]`). -/
def extBack (a b : List Char) (alo blo : Nat) : Nat → Block → Block
  | 0, t => t
  | fuel + 1, t =>
    if alo < t.bi ∧ blo < t.bj ∧ a.getD (t.bi - 1) '!' = b.getD (t.bj - 1) '?' then
      extBack a b alo blo fuel ⟨t.bi - 1, t.bj - 1, t.size + 1⟩
    else t

/-- Forward extension loop of `find_longest_match`
(`while besti+bestsize < ahi and bestj+bestsize < bhi and a[..] == b[..]`). -/
def extFwd (a b : List Char) (ahi bhi : Nat) : Nat → Block → Block
  | 0, t => t
  | fuel + 1, t =>
    if t.bi + t.size < ahi ∧ t.bj + t.size < bhi ∧
       a.getD (t.bi + t.size) '!' = b.getD (t.bj + t.size) '?' then
      extFwd a b ahi bhi fuel ⟨t.bi, t.bj, t.size + 1⟩
    else t

/-- `find_longest_match(alo, ahi, blo, bhi)` with an empty junk set. -/
def flm (a b : List Char) (alo ahi blo bhi : Nat) : Block :=
  let s := flmScan a b blo bhi ahi (ahi - alo) alo (fun _ => 0) ⟨alo, blo, 0⟩
  let s := extBack a b alo blo s.bi s
  extFwd a b ahi bhi (ahi + bhi) s

/-- Recursive total of the matching-block sizes (`get_matching_blocks`
decomposition).  The bound checks in the `if` always hold for `flm`'s output;
they make the fuel `(ahi - alo) + (bhi - blo) + 1` provably sufficient. -/
def mtGo (a b : List Char) : Nat → Nat → Nat → Nat → Nat → Nat
  | 0, _, _, _, _ => 0
  | fuel + 1, alo, ahi, blo, bhi =>
    let t := flm a b alo ahi blo bhi
    if 0 < t.size ∧ alo ≤ t.bi ∧ t.bi + t.size ≤ ahi ∧ blo ≤ t.bj ∧ t.bj + t.size ≤ bhi then
      mtGo a b fuel alo t.bi blo t.bj + t.size +
        mtGo a b fuel (t.bi + t.size) ahi (t.bj + t.size) bhi
    else 0

/-- `matches`: the total size of the matching blocks on the given ranges. -/
def matchTotal (a b : List Char) (alo ahi blo bhi : Nat) : Nat :=
  mtGo a b ((ahi - alo) + (bhi - blo) + 1) alo ahi blo bhi

/-- The matched total over the full strings. -/
def seqM (a b : List Char) : Nat := matchTotal a b 0 a.length 0 b.length

/-! ## `fuzzy_score` -/

/-- difflib's `_calculate_ratio m L` = `2*m/L`, and `1.0` when `L = 0`
(both sequences empty). -/
def calcRatioQ (m L : Nat) : ℚ := if L = 0 then 1 else 2 * (m : ℚ) / (L : ℚ)

/-- `SequenceMatcher(None, na, nb).ratio()` on the two fuzzy keys. -/
def seqRatioQ (na nb : String) : ℚ :=
  calcRatioQ (seqM na.toList nb.toList) (na.length + nb.length)

/-- The token set `set(n.split())` of a fuzzy key. -/
def tokSet (n : String) : Finset String := ((splitWS n.toList).map String.mk).toFinset

/-- The Jaccard component of `fuzzy_score`: `|A∩B| / |A∪B|` when both token
sets are nonempty, else `0.0`. -/
def jaccardQ (na nb : String) : ℚ :=
  if tokSet na ≠ ∅ ∧ tokSet nb ≠ ∅ then
    ((tokSet na ∩ tokSet nb).card : ℚ) / ((tokSet na ∪ tokSet nb).card : ℚ)
  else 0

/-- `fuzzy_score` from the source: `0` when either fuzzy key is empty
(Python string truthiness), otherwise `int((0.6*seq_ratio + 0.4*jaccard)*100)`.
The value is non-negative, so Python's `int` truncation is the floor.
Floats are modelled by exact rationals. -/
def fuzzy_score (a b : String) : Nat :=
  let na := normalize_for_fuzzy a
  let nb := normalize_for_fuzzy b
  if na = "" ∨ nb = "" then 0
  else (⌊((6 : ℚ) / 10 * seqRatioQ na nb + 4 / 10 * jaccardQ na nb) * 100⌋).toNat

/-- Integer-arithmetic evaluator for `fuzzy_score` (proved equal to it in
`fuzzy_score_eval` below): the floor of the exact rational score as one `Nat`
division.  Rational arithmetic does not reduce inside the kernel, so concrete
runs are computed through this form. -/
def scoreNat (a b : String) : Nat :=
  let na := normalize_for_fuzzy a
  let nb := normalize_for_fuzzy b
  if na = "" ∨ nb = "" then 0
  else
    let M := seqM na.toList nb.toList
    let L := na.length + nb.length
    let I := ((tokSet na ∩ tokSet nb).card)
    let U := ((tokSet na ∪ tokSet nb).card)
    if tokSet na ≠ ∅ ∧ tokSet nb ≠ ∅ then
      (120 * M * U + 40 * I * L) / (L * U)
    else 120 * M / L

/-! ## The reconciliation engine: `find_fuzzy_matches`

The engine receives the two unmatched key sets as duplicate-free lists (list
order = set-iteration order), the threshold, and a function `opp` modelling
the lookup `sf_by_name[sf_orig.get(k, k)][0].get("Opp Name", "")` of pass 3
(`none` models an absent row list).  Result rows carry the matched keys,
score and method tag; the display/metadata decoration of the source's rows
(`SF_Name`, `SP_Name`, `SF_Opp_Name`, `SF_Fund`, picked out of the first
matching record of each side) does not feed back into matching and is not
modelled. -/

/-- A fuzzy-match result row (keys, score, method tag). -/
structure MatchRow where
  sf : String
  sp : String
  score : Nat
  method : String
deriving DecidableEq, Repr

/-- The engine state: result rows plus the two matched-key sets
(`fuzzy_rows`, `sf_matched`, `sp_matched`), in insertion order. -/
structure EngSt where
  rows : List MatchRow
  sfM : List String
  spM : List String
deriving DecidableEq, Repr

/-- Structural lexicographic `≤` on character lists (Python's string
comparison: code-point lexicographic). -/
def leChars : List Char → List Char → Bool
  | [], _ => true
  | _ :: _, [] => false
  | a :: as, b :: bs => if a = b then leChars as bs else decide (a < b)

/-- `strLe a b` decides Python's `a <= b` on strings. -/
def strLe (a b : String) : Bool := leChars a.toList b.toList

/-- A kernel-computable decision procedure for `≤` on `String` (the library
one recurses on iterators and does not reduce inside the kernel). -/
def decStrLe : DecidableRel (fun a b : String => a ≤ b) := fun a b =>
  decidable_of_iff (strLe a b = true) (by
    show strLe a b = true ↔ a ≤ b
    rw [String.le_iff_toList_le]
    show leChars a.toList b.toList = true ↔ a.toList ≤ b.toList
    have hl : ∀ (as bs : List Char), leChars as bs = true ↔ ¬ List.Lex (· < ·) bs as := by
      intro as
      induction as with
      | nil =>
        intro bs
        exact iff_of_true rfl (fun h => by cases h)
      | cons a as ih =>
        intro bs
        cases bs with
        | nil =>
          refine iff_of_false ?_ ?_
          · simp [leChars]
          · intro hn
            exact hn List.Lex.nil
        | cons b bs =>
          simp only [leChars]
          by_cases hab : a = b
          · subst hab
            rw [if_pos rfl, ih bs]
            constructor
            · intro hn hlex
              cases hlex with
              | cons h => exact hn h
              | rel h => exact absurd h (lt_irrefl a)
            · intro hn hlex
              exact hn (List.Lex.cons hlex)
          · rw [if_neg hab]
            rcases lt_trichotomy a b with h | h | h
            · refine iff_of_true (decide_eq_true h) ?_
              intro hlex
              cases hlex with
              | cons _ => exact hab rfl
              | rel h2 => exact absurd h (lt_asymm h2)
            · exact absurd h hab
            · refine iff_of_false ?_ ?_
              · simp only [decide_eq_true_iff]
                exact not_lt_of_gt h
              · intro hn
                exact hn (List.Lex.rel h)
    rw [hl a.toList b.toList]
    have h := @not_lt (List Char) _ b.toList a.toList
    simp only [List.lt_iff_lex_lt] at h
    exact h)

/-- `sorted(keys)` (Python sorts strings lexicographically by code point,
which is the `String` linear order). -/
def sortKeys (l : List String) : List String :=
  @List.insertionSort String (· ≤ ·) decStrLe l

/-- `sp_by_project[p]`: the right-side keys whose extracted codename is `p`,
in input order — the `defaultdict(list)` grouping of the source. -/
def groupProj (spU : List String) (p : String) : List String :=
  spU.filter (fun k => extract_project_name k = some p)

/-- One step of the best-candidate loop: skip the candidate when `skip`
holds, otherwise keep it on a strictly greater score
(`if score > best_score`). -/
def bestStep (score : String → Nat) (skip : String → Bool)
    (acc : Nat × Option String) (sp : String) : Nat × Option String :=
  if skip sp then acc
  else if acc.1 < score sp then (score sp, some sp) else acc

/-- The best-candidate loop shared by the passes: iterate the candidates in
order starting from `(0, None)`. -/
def bestLoop (score : String → Nat) (skip : String → Bool) (cands : List String) :
    Nat × Option String :=
  cands.foldl (bestStep score skip) (0, none)

/-- Pass 1 (project-codename matching) for one left key: if the key has a
codename with a nonempty right-side group, pick the best not-yet-matched
group member and commit it when `best_sp` is truthy and `best_score ≥ T`,
with method `project_name`.  (`best_sp` truthiness also excludes the empty
string, hence the `bsp ≠ ""` conjunct; an empty key always scores 0 and can
never be selected, so the conjunct never fires.) -/
def pass1Step (sc : String → String → Nat) (spU : List String) (T : Int) (st : EngSt) (sfk : String) : EngSt :=
  match extract_project_name sfk with
  | none => st
  | some p =>
    if groupProj spU p = [] then st
    else
      match bestLoop (sc sfk) (fun sp => st.spM.contains sp) (groupProj spU p) with
      | (bs, some bsp) =>
        if bsp ≠ "" ∧ T ≤ (bs : Int) then
          ⟨st.rows ++ [⟨sfk, bsp, bs, "project_name"⟩], st.sfM ++ [sfk], st.spM ++ [bsp]⟩
        else st
      | (_, none) => st

/-- Does `sp`'s token set share a token with `sfToks`?  (Membership in the
union of the inverted-index entries of the left key's tokens.) -/
def sharesTok (sfToks : List String) (sp : String) : Bool :=
  (tokenize sp).any (fun t => sfToks.contains t)

/-- Pass 2 (token-indexed fuzzy search) for one left key: candidates are the
remaining right keys sharing at least one significant token, minus the
already-matched ones; a candidate whose codename exists and differs from the
left key's codename is skipped (the cross-project guard); commit the best as
`token_fuzzy` when `best_score ≥ T`. -/
def pass2Step (sc : String → String → Nat) (spRem : List String) (T : Int)
    (st : EngSt) (sfk : String) : EngSt :=
  if tokenize sfk = [] then st
  else
    if spRem.filter (fun sp => !st.spM.contains sp && sharesTok (tokenize sfk) sp) = [] then st
    else
      match bestLoop (sc sfk)
          (fun sp =>
            match extract_project_name sfk, extract_project_name sp with
            | some p, some q => decide (p ≠ q)
            | _, _ => false)
          (spRem.filter (fun sp => !st.spM.contains sp && sharesTok (tokenize sfk) sp)) with
      | (bs, some bsp) =>
        if bsp ≠ "" ∧ T ≤ (bs : Int) then
          ⟨st.rows ++ [⟨sfk, bsp, bs, "token_fuzzy"⟩], st.sfM ++ [sfk], st.spM ++ [bsp]⟩
        else st
      | (_, none) => st

/-- Python's `str.title()` applied to the codename (always a lowercase
alphabetic word, so only its first letter is uppercased). -/
def titleWord (p : String) : String :=
  match p.toList with
  | [] => ""
  | c :: r => String.mk (upperChar c :: r)

/-- The synthetic string `f"project {opp_proj} {normalize_for_fuzzy(sf_key)}"`
scored in pass 3. -/
def altKey (p sfk : String) : String :=
  "project " ++ p ++ " " ++ normalize_for_fuzzy sfk

/-- The pass-3 method tag `f"opp_name_xref (Project {opp_proj.title()})"`. -/
def oppMethod (p : String) : String :=
  "opp_name_xref (Project " ++ titleWord p ++ ")"

/-- Pass 3 (Opp-Name cross-reference) for one left key: only when the key
itself has no codename but its record's `Opp Name` yields one with a
right-side group; each group member still unmatched is scored as the max of
the raw key and the codename-prefixed fuzzy key against it; commit the best
when `best_score ≥ max(T - 10, 60)`. -/
def pass3Step (sc : String → String → Nat) (spU : List String) (T : Int)
    (opp : String → Option String) (st : EngSt) (sfk : String) : EngSt :=
  match opp sfk with
  | none => st
  | some oppName =>
    match extract_project_name oppName, extract_project_name sfk with
    | some p, none =>
      if groupProj spU p = [] then st
      else
        match bestLoop (fun sp => max (sc sfk sp) (sc (altKey p sfk) sp))
            (fun sp => st.spM.contains sp) (groupProj spU p) with
        | (bs, some bsp) =>
          if bsp ≠ "" ∧ max (T - 10) 60 ≤ (bs : Int) then
            ⟨st.rows ++ [⟨sfk, bsp, bs, oppMethod p⟩], st.sfM ++ [sfk], st.spM ++ [bsp]⟩
          else st
        | (_, none) => st
    | _, _ => st

/-- The three passes of `find_fuzzy_matches`, over an arbitrary scorer `sc`
(instantiated with `fuzzy_score` below, and with the provably equal `scoreNat`
for concrete evaluation): pass 1 over the sorted left keys, pass 2 over the
sorted remaining left keys against the remaining right keys, pass 3 over the
still remaining left keys against the pass-1 grouping (which is built from the
original `sp_unmatched` and filtered against the current matched set inside
the loop). -/
def engineCore (sc : String → String → Nat) (sfU spU : List String)
    (opp : String → Option String) (T : Int) : EngSt :=
  let sortedSf := sortKeys sfU
  let st1 := sortedSf.foldl (pass1Step sc spU T) ⟨[], [], []⟩
  let sfRem := sortedSf.filter (fun k => !st1.sfM.contains k)
  let spRem := spU.filter (fun k => !st1.spM.contains k)
  let st2 := sfRem.foldl (pass2Step sc spRem T) st1
  let sfRem2 := sortedSf.filter (fun k => !st2.sfM.contains k)
  sfRem2.foldl (pass3Step sc spU T opp) st2

/-- `find_fuzzy_matches` proper: the three passes with the source's scorer. -/
def find_fuzzy_matches (sfU spU : List String) (opp : String → Option String)
    (T : Int) : EngSt :=
  engineCore fuzzy_score sfU spU opp T

/-! ## The `main` partition

`main` derives the two exact-key sets, intersects and differences them, and
(when `--fuzzy` is given) removes the engine's matched keys from the two
`only_*` sets.  Key sets are modelled as duplicate-free lists; the
case-sensitivity flag only affects how the key sets are derived upstream
(lower-cased or not), so the model quantifies over arbitrary key lists. -/

/-- The four output sets of a run. -/
structure Partition where
  in_both : List String
  fuzzyRows : List MatchRow
  only_sf : List String
  only_sp : List String
deriving DecidableEq, Repr

/-- The partition computed by `main` (lines 468–525 of the source). -/
def comparePartition (sfKeys spKeys : List String) (useFuzzy : Bool) (T : Int)
    (opp : String → Option String) : Partition :=
  let inBoth := sfKeys.filter (fun k => spKeys.contains k)
  let onlySf := sfKeys.filter (fun k => !spKeys.contains k)
  let onlySp := spKeys.filter (fun k => !sfKeys.contains k)
  if useFuzzy then
    let st := find_fuzzy_matches onlySf onlySp opp T
    ⟨inBoth, st.rows, onlySf.filter (fun k => !st.sfM.contains k),
     onlySp.filter (fun k => !st.spM.contains k)⟩
  else ⟨inBoth, [], onlySf, onlySp⟩

/-- The score exactly as the specification words it: `round(100 × (0.6 ×
sequenceRatio + 0.4 × jaccard))` on the two fuzzy keys, and `0` when either
fuzzy key is empty.  Compared against `fuzzy_score` (from the source, which
truncates with `int(...)`) below. -/
def specScoreRound (a b : String) : ℤ :=
  if normalize_for_fuzzy a = "" ∨ normalize_for_fuzzy b = "" then 0
  else round ((100 : ℚ) *
    ((6 : ℚ) / 10 * seqRatioQ (normalize_for_fuzzy a) (normalize_for_fuzzy b) +
      4 / 10 * jaccardQ (normalize_for_fuzzy a) (normalize_for_fuzzy b)))

/-- The same specification formula with the final rounding replaced by
truncation (floor — the two agree on non-negative integers produced by
`int()` in the source): the amended form of the score specification. -/
def specScoreFloor (a b : String) : ℤ :=
  if normalize_for_fuzzy a = "" ∨ normalize_for_fuzzy b = "" then 0
  else ⌊(100 : ℚ) *
    ((6 : ℚ) / 10 * seqRatioQ (normalize_for_fuzzy a) (normalize_for_fuzzy b) +
      4 / 10 * jaccardQ (normalize_for_fuzzy a) (normalize_for_fuzzy b))⌋

/-! ## Verification infrastructure -/

/-- The engine-state invariant: the result rows mirror the two matched-key
lists, both matched lists are duplicate-free and drawn from the respective
input key sets. -/
def EngInv (sfU spU : List String) (st : EngSt) : Prop :=
  st.rows.map MatchRow.sf = st.sfM ∧ st.rows.map MatchRow.sp = st.spM ∧
  st.sfM.Nodup ∧ st.spM.Nodup ∧
  (∀ k ∈ st.sfM, k ∈ sfU) ∧ (∀ k ∈ st.spM, k ∈ spU)

/-- Shape of one engine step: it either leaves the state unchanged or commits
exactly one new row `r` (satisfying `P`) for the processed left key, marking
a fresh right key as matched. -/
def StepShape (spU : List String) (P : MatchRow → Prop) (st : EngSt) (sfk : String)
    (st' : EngSt) : Prop :=
  st' = st ∨ ∃ r : MatchRow, P r ∧ r.sf = sfk ∧ r.sp ∈ spU ∧ r.sp ∉ st.spM ∧
    st' = ⟨st.rows ++ [r], st.sfM ++ [sfk], st.spM ++ [r.sp]⟩

/-! ## The diagonal of the `find_longest_match` dynamic programme -/

/-- The textbook suffix-run table: `dpRun l i j` is the length of the common
suffix run of `l[..i]` and `l[..j]` ending exactly at positions `i`, `j`
(`0` when `l[j] ≠ l[i]` or either index is out of range). -/
def dpRun (l : List Char) : Nat → Nat → Nat
  | 0, j => if l.getD j '!' = l.getD 0 '!' ∧ 0 < l.length ∧ j < l.length then 1 else 0
  | i + 1, j =>
    if l.getD j '!' = l.getD (i + 1) '!' ∧ i + 1 < l.length ∧ j < l.length then
      (if j = 0 then 0 else dpRun l i (j - 1)) + 1
    else 0

/-- The `j2len` map entering row `i` of the scan: all zeroes before row 0,
afterwards the previous row of `dpRun`. -/
def dps (l : List Char) : Nat → Nat → Nat
  | 0, _ => 0
  | i + 1, j => dpRun l i j

/-! ## Verification -/

theorem strLen_pos {s : String} (h : s ≠ "") : 0 < s.length := by
  cases s with
  | mk d =>
    cases d with
    | nil => exact absurd rfl h
    | cons c cs => simp [String.length]

theorem contains_true_iff {l : List String} {a : String} :
    l.contains a = true ↔ a ∈ l := by
  simp [List.contains, List.elem_iff]

theorem contains_false_iff {l : List String} {a : String} :
    l.contains a = false ↔ a ∉ l := by
  rw [← Bool.not_eq_true, not_iff_not]
  exact contains_true_iff

/-! ## Evaluating `fuzzy_score` by integer arithmetic -/

theorem fuzzy_score_eval (a b : String) : fuzzy_score a b = scoreNat a b := by
  simp only [fuzzy_score, scoreNat]
  by_cases h : normalize_for_fuzzy a = "" ∨ normalize_for_fuzzy b = ""
  · rw [if_pos h, if_pos h]
  · rw [if_neg h, if_neg h]
    push_neg at h
    obtain ⟨ha, hb⟩ := h
    have hL : ((normalize_for_fuzzy a).length + (normalize_for_fuzzy b).length) ≠ 0 :=
      Nat.pos_iff_ne_zero.mp (Nat.add_pos_left (strLen_pos ha) _)
    have h1 : (((normalize_for_fuzzy a).length : ℚ) + ((normalize_for_fuzzy b).length : ℚ)) ≠ 0 := by
      have := hL
      intro hq
      apply this
      have : ((((normalize_for_fuzzy a).length + (normalize_for_fuzzy b).length : ℕ)) : ℚ) = 0 := by
        push_cast
        exact hq
      exact_mod_cast this
    have hseq : seqRatioQ (normalize_for_fuzzy a) (normalize_for_fuzzy b) =
        2 * ((seqM (normalize_for_fuzzy a).toList (normalize_for_fuzzy b).toList : ℕ) : ℚ) /
          (((normalize_for_fuzzy a).length + (normalize_for_fuzzy b).length : ℕ) : ℚ) := by
      simp only [seqRatioQ, calcRatioQ]
      rw [if_neg hL]
    by_cases ht : tokSet (normalize_for_fuzzy a) ≠ ∅ ∧ tokSet (normalize_for_fuzzy b) ≠ ∅
    · rw [if_pos ht]
      have hU : 0 < (tokSet (normalize_for_fuzzy a) ∪ tokSet (normalize_for_fuzzy b)).card := by
        refine Finset.card_pos.mpr ?_
        exact (Finset.nonempty_iff_ne_empty.mpr ht.1).mono Finset.subset_union_left
      have h2 : (((tokSet (normalize_for_fuzzy a) ∪ tokSet (normalize_for_fuzzy b)).card : ℕ) : ℚ) ≠ 0 := by
        exact_mod_cast Nat.pos_iff_ne_zero.mp hU
      have hjac : jaccardQ (normalize_for_fuzzy a) (normalize_for_fuzzy b) =
          (((tokSet (normalize_for_fuzzy a) ∩ tokSet (normalize_for_fuzzy b)).card : ℕ) : ℚ) /
          (((tokSet (normalize_for_fuzzy a) ∪ tokSet (normalize_for_fuzzy b)).card : ℕ) : ℚ) := by
        simp only [jaccardQ]
        rw [if_pos ht]
      rw [hseq, hjac]
      have key : ((6 : ℚ) / 10 *
            (2 * ((seqM (normalize_for_fuzzy a).toList (normalize_for_fuzzy b).toList : ℕ) : ℚ) /
              (((normalize_for_fuzzy a).length + (normalize_for_fuzzy b).length : ℕ) : ℚ)) +
            4 / 10 *
            ((((tokSet (normalize_for_fuzzy a) ∩ tokSet (normalize_for_fuzzy b)).card : ℕ) : ℚ) /
              (((tokSet (normalize_for_fuzzy a) ∪ tokSet (normalize_for_fuzzy b)).card : ℕ) : ℚ))) * 100 =
          ((120 * seqM (normalize_for_fuzzy a).toList (normalize_for_fuzzy b).toList *
              (tokSet (normalize_for_fuzzy a) ∪ tokSet (normalize_for_fuzzy b)).card +
            40 * (tokSet (normalize_for_fuzzy a) ∩ tokSet (normalize_for_fuzzy b)).card *
              ((normalize_for_fuzzy a).length + (normalize_for_fuzzy b).length) : ℕ) : ℚ) /
          ((((normalize_for_fuzzy a).length + (normalize_for_fuzzy b).length) *
            (tokSet (normalize_for_fuzzy a) ∪ tokSet (normalize_for_fuzzy b)).card : ℕ) : ℚ) := by
        push_cast
        rw [eq_div_iff (mul_ne_zero h1 h2)]
        field_simp
        ring
      rw [key, Int.floor_toNat, Nat.floor_div_nat, Nat.floor_natCast]
    · rw [if_neg ht]
      have hjac : jaccardQ (normalize_for_fuzzy a) (normalize_for_fuzzy b) = 0 := by
        simp only [jaccardQ]
        rw [if_neg ht]
      rw [hseq, hjac]
      have key : ((6 : ℚ) / 10 *
            (2 * ((seqM (normalize_for_fuzzy a).toList (normalize_for_fuzzy b).toList : ℕ) : ℚ) /
              (((normalize_for_fuzzy a).length + (normalize_for_fuzzy b).length : ℕ) : ℚ)) +
            4 / 10 * 0) * 100 =
          ((120 * seqM (normalize_for_fuzzy a).toList (normalize_for_fuzzy b).toList : ℕ) : ℚ) /
          (((normalize_for_fuzzy a).length + (normalize_for_fuzzy b).length : ℕ) : ℚ) := by
        push_cast
        rw [eq_div_iff h1]
        field_simp
        ring
      rw [key, Int.floor_toNat, Nat.floor_div_nat, Nat.floor_natCast]

theorem fuzzy_score_fun_eq : fuzzy_score = scoreNat :=
  funext fun a => funext fun b => fuzzy_score_eval a b

theorem find_fuzzy_matches_eq_core : find_fuzzy_matches = engineCore scoreNat := by
  funext sfU spU opp T
  unfold find_fuzzy_matches
  rw [fuzzy_score_fun_eq]

/-! ## The best-candidate loop -/

theorem bestFold_spec (score : String → Nat) (skip : String → Bool) :
    ∀ (cands : List String) (acc : Nat × Option String),
      (cands.foldl (bestStep score skip) acc = acc ∨
        ∃ sp, sp ∈ cands ∧ skip sp = false ∧
          cands.foldl (bestStep score skip) acc = (score sp, some sp) ∧
          acc.1 < score sp) ∧
      (∀ x ∈ cands, skip x = false → score x ≤ (cands.foldl (bestStep score skip) acc).1) ∧
      acc.1 ≤ (cands.foldl (bestStep score skip) acc).1 := by
  intro cands
  induction cands with
  | nil =>
    intro acc
    refine ⟨Or.inl rfl, ?_, le_refl _⟩
    intro x hx
    cases hx
  | cons c cs ih =>
    intro acc
    rw [List.foldl_cons]
    by_cases hsk : skip c = true
    · have hstep : bestStep score skip acc c = acc := by
        simp [bestStep, hsk]
      rw [hstep]
      obtain ⟨ihd, ihb, ihm⟩ := ih acc
      refine ⟨?_, ?_, ihm⟩
      · rcases ihd with h | ⟨sp, hsp, hsks, heq, hgt⟩
        · exact Or.inl h
        · exact Or.inr ⟨sp, List.mem_cons_of_mem _ hsp, hsks, heq, hgt⟩
      · intro x hx hxsk
        rcases List.mem_cons.mp hx with rfl | hx'
        · rw [hxsk] at hsk; cases hsk
        · exact ihb x hx' hxsk
    · have hskf : skip c = false := by
        cases h : skip c
        · rfl
        · exact absurd h hsk
      by_cases hlt : acc.1 < score c
      · have hstep : bestStep score skip acc c = (score c, some c) := by
          simp [bestStep, hskf, hlt]
        rw [hstep]
        obtain ⟨ihd, ihb, ihm⟩ := ih (score c, some c)
        refine ⟨?_, ?_, le_trans (le_of_lt hlt) ihm⟩
        · rcases ihd with h | ⟨sp, hsp, hsks, heq, hgt⟩
          · exact Or.inr ⟨c, List.mem_cons_self c cs, hskf, h, hlt⟩
          · exact Or.inr ⟨sp, List.mem_cons_of_mem _ hsp, hsks, heq, lt_trans hlt hgt⟩
        · intro x hx hxsk
          rcases List.mem_cons.mp hx with rfl | hx'
          · exact ihm
          · exact ihb x hx' hxsk
      · have hstep : bestStep score skip acc c = acc := by
          simp [bestStep, hskf, hlt]
        rw [hstep]
        obtain ⟨ihd, ihb, ihm⟩ := ih acc
        refine ⟨?_, ?_, ihm⟩
        · rcases ihd with h | ⟨sp, hsp, hsks, heq, hgt⟩
          · exact Or.inl h
          · exact Or.inr ⟨sp, List.mem_cons_of_mem _ hsp, hsks, heq, hgt⟩
        · intro x hx hxsk
          rcases List.mem_cons.mp hx with rfl | hx'
          · exact le_trans (Nat.le_of_not_lt hlt) ihm
          · exact ihb x hx' hxsk

theorem bestLoop_some_spec {score : String → Nat} {skip : String → Bool}
    {cands : List String} {bs : Nat} {sp : String}
    (h : bestLoop score skip cands = (bs, some sp)) :
    sp ∈ cands ∧ skip sp = false ∧ bs = score sp ∧ 0 < bs := by
  obtain ⟨hd, _, _⟩ := bestFold_spec score skip cands (0, none)
  unfold bestLoop at h
  rcases hd with h0 | ⟨sp', hm, hsks, heq, hgt⟩
  · rw [h] at h0
    simp at h0
  · rw [h] at heq
    simp only [Prod.mk.injEq, Option.some.injEq] at heq
    obtain ⟨hbs, hsp⟩ := heq
    subst hsp
    exact ⟨hm, hsks, hbs, hbs ▸ hgt⟩

theorem bestLoop_fst_max {score : String → Nat} {skip : String → Bool}
    {cands : List String} :
    ∀ x ∈ cands, skip x = false → score x ≤ (bestLoop score skip cands).1 := by
  obtain ⟨_, hb, _⟩ := bestFold_spec score skip cands (0, none)
  exact hb

/-! ## Case analysis of the three pass bodies -/

theorem pass1Step_cases (sc : String → String → Nat) (spU : List String) (T : Int)
    (st : EngSt) (sfk : String) :
    pass1Step sc spU T st sfk = st ∨
    ∃ p bsp, extract_project_name sfk = some p ∧ bsp ∈ groupProj spU p ∧
      bsp ∉ st.spM ∧ 0 < sc sfk bsp ∧ T ≤ ((sc sfk bsp : ℕ) : ℤ) ∧
      pass1Step sc spU T st sfk =
        ⟨st.rows ++ [⟨sfk, bsp, sc sfk bsp, "project_name"⟩],
         st.sfM ++ [sfk], st.spM ++ [bsp]⟩ := by
  unfold pass1Step
  split
  · exact Or.inl rfl
  next p hp =>
    split
    · exact Or.inl rfl
    next hg =>
      split
      next bs bsp hbl =>
        split
        next hc =>
          obtain ⟨hm, hsk, hbs, hpos⟩ := bestLoop_some_spec hbl
          refine Or.inr ⟨p, bsp, hp, hm, contains_false_iff.mp hsk,
            hbs ▸ hpos, hbs ▸ hc.2, ?_⟩
          rw [hbs]
        next hc => exact Or.inl rfl
      next fst hbl => exact Or.inl rfl

theorem pass2Step_cases (sc : String → String → Nat) (spRem : List String) (T : Int)
    (st : EngSt) (sfk : String) :
    pass2Step sc spRem T st sfk = st ∨
    ∃ bsp, bsp ∈ spRem ∧ bsp ∉ st.spM ∧
      (∀ p q, extract_project_name sfk = some p → extract_project_name bsp = some q → p = q) ∧
      0 < sc sfk bsp ∧ T ≤ ((sc sfk bsp : ℕ) : ℤ) ∧
      pass2Step sc spRem T st sfk =
        ⟨st.rows ++ [⟨sfk, bsp, sc sfk bsp, "token_fuzzy"⟩],
         st.sfM ++ [sfk], st.spM ++ [bsp]⟩ := by
  unfold pass2Step
  split
  · exact Or.inl rfl
  next h0 =>
    split
    · exact Or.inl rfl
    next h1 =>
      split
      next bs bsp hbl =>
        split
        next hc =>
          obtain ⟨hm, hsk, hbs, hpos⟩ := bestLoop_some_spec hbl
          obtain ⟨hmem, hcond⟩ := List.mem_filter.mp hm
          have hnm : bsp ∉ st.spM := by
            have h2 := (Bool.and_eq_true _ _).mp hcond
            refine contains_false_iff.mp ?_
            have := h2.1
            simpa using this
          refine Or.inr ⟨bsp, hmem, hnm, ?_, hbs ▸ hpos, hbs ▸ hc.2, ?_⟩
          · intro p q hp hq
            simp only [hp, hq] at hsk
            simpa using hsk
          · rw [hbs]
        next hc => exact Or.inl rfl
      next fst hbl => exact Or.inl rfl

theorem pass3Step_cases (sc : String → String → Nat) (spU : List String) (T : Int)
    (opp : String → Option String) (st : EngSt) (sfk : String) :
    pass3Step sc spU T opp st sfk = st ∨
    ∃ o p bsp, opp sfk = some o ∧ extract_project_name o = some p ∧
      extract_project_name sfk = none ∧ bsp ∈ groupProj spU p ∧ bsp ∉ st.spM ∧
      0 < max (sc sfk bsp) (sc (altKey p sfk) bsp) ∧
      max (T - 10) 60 ≤ ((max (sc sfk bsp) (sc (altKey p sfk) bsp) : ℕ) : ℤ) ∧
      pass3Step sc spU T opp st sfk =
        ⟨st.rows ++ [⟨sfk, bsp, max (sc sfk bsp) (sc (altKey p sfk) bsp), oppMethod p⟩],
         st.sfM ++ [sfk], st.spM ++ [bsp]⟩ := by
  unfold pass3Step
  split
  · exact Or.inl rfl
  next o ho =>
    split
    next _d1 _d2 p hop hfp =>
      split
      · exact Or.inl rfl
      next hg =>
        split
        next bs bsp hbl =>
          split
          next hc =>
            obtain ⟨hm, hsk, hbs, hpos⟩ := bestLoop_some_spec hbl
            refine Or.inr ⟨o, p, bsp, ho, hop, hfp, hm, contains_false_iff.mp hsk,
              hbs ▸ hpos, hbs ▸ hc.2, ?_⟩
            rw [hbs]
          next hc => exact Or.inl rfl
        next fst hbl => exact Or.inl rfl
    next h => exact Or.inl rfl

/-! ## Step shapes and the engine invariant -/

theorem groupProj_subset {spU : List String} {p k : String}
    (h : k ∈ groupProj spU p) : k ∈ spU :=
  (List.mem_filter.mp h).1

theorem groupProj_extract {spU : List String} {p k : String}
    (h : k ∈ groupProj spU p) : extract_project_name k = some p := by
  have h2 := (List.mem_filter.mp h).2
  simpa using h2

theorem mem_groupProj {spU : List String} {p k : String}
    (hk : k ∈ spU) (he : extract_project_name k = some p) : k ∈ groupProj spU p := by
  refine List.mem_filter.mpr ⟨hk, ?_⟩
  simpa using he

theorem pass1Step_shape (sc : String → String → Nat) (spU : List String) (T : Int)
    (P : MatchRow → Prop)
    (hP : ∀ sfk p bsp, extract_project_name sfk = some p → bsp ∈ groupProj spU p →
      0 < sc sfk bsp → T ≤ ((sc sfk bsp : ℕ) : ℤ) →
      P ⟨sfk, bsp, sc sfk bsp, "project_name"⟩) :
    ∀ st sfk, StepShape spU P st sfk (pass1Step sc spU T st sfk) := by
  intro st sfk
  rcases pass1Step_cases sc spU T st sfk with h | ⟨p, bsp, hp, hm, hnm, hpos, hT, heq⟩
  · exact Or.inl h
  · exact Or.inr ⟨⟨sfk, bsp, sc sfk bsp, "project_name"⟩,
      hP sfk p bsp hp hm hpos hT, rfl, groupProj_subset hm, hnm, heq⟩

theorem pass2Step_shape (sc : String → String → Nat) (spRem spU : List String) (T : Int)
    (hsub : ∀ k ∈ spRem, k ∈ spU) (P : MatchRow → Prop)
    (hP : ∀ sfk bsp, bsp ∈ spU →
      (∀ p q, extract_project_name sfk = some p → extract_project_name bsp = some q → p = q) →
      0 < sc sfk bsp → T ≤ ((sc sfk bsp : ℕ) : ℤ) →
      P ⟨sfk, bsp, sc sfk bsp, "token_fuzzy"⟩) :
    ∀ st sfk, StepShape spU P st sfk (pass2Step sc spRem T st sfk) := by
  intro st sfk
  rcases pass2Step_cases sc spRem T st sfk with h | ⟨bsp, hm, hnm, hcompat, hpos, hT, heq⟩
  · exact Or.inl h
  · exact Or.inr ⟨⟨sfk, bsp, sc sfk bsp, "token_fuzzy"⟩,
      hP sfk bsp (hsub bsp hm) hcompat hpos hT, rfl, hsub bsp hm, hnm, heq⟩

theorem pass3Step_shape (sc : String → String → Nat) (spU : List String) (T : Int)
    (opp : String → Option String) (P : MatchRow → Prop)
    (hP : ∀ sfk o p bsp, opp sfk = some o → extract_project_name o = some p →
      extract_project_name sfk = none → bsp ∈ groupProj spU p →
      0 < max (sc sfk bsp) (sc (altKey p sfk) bsp) →
      max (T - 10) 60 ≤ ((max (sc sfk bsp) (sc (altKey p sfk) bsp) : ℕ) : ℤ) →
      P ⟨sfk, bsp, max (sc sfk bsp) (sc (altKey p sfk) bsp), oppMethod p⟩) :
    ∀ st sfk, StepShape spU P st sfk (pass3Step sc spU T opp st sfk) := by
  intro st sfk
  rcases pass3Step_cases sc spU T opp st sfk with h |
    ⟨o, p, bsp, ho, hop, hfp, hm, hnm, hpos, hT, heq⟩
  · exact Or.inl h
  · exact Or.inr ⟨⟨sfk, bsp, max (sc sfk bsp) (sc (altKey p sfk) bsp), oppMethod p⟩,
      hP sfk o p bsp ho hop hfp hm hpos hT, rfl, groupProj_subset hm, hnm, heq⟩

theorem foldl_stepshape (spU : List String) (P : MatchRow → Prop)
    (step : EngSt → String → EngSt) (sfU : List String)
    (hstep : ∀ st sfk, StepShape spU P st sfk (step st sfk)) :
    ∀ (l : List String) (st : EngSt), l.Nodup → (∀ k ∈ l, k ∈ sfU) →
      (∀ k ∈ l, k ∉ st.sfM) → EngInv sfU spU st → (∀ r ∈ st.rows, P r) →
      EngInv sfU spU (l.foldl step st) ∧ ∀ r ∈ (l.foldl step st).rows, P r := by
  intro l
  induction l with
  | nil =>
    intro st _ _ _ hinv hP
    exact ⟨hinv, hP⟩
  | cons a l ih =>
    intro st hnd hsub hdis hinv hP
    rw [List.foldl_cons]
    rcases hstep st a with h | ⟨r, hPr, hrsf, hrsp, hrnm, heq⟩
    · rw [h]
      exact ih st (List.Nodup.of_cons hnd)
        (fun k hk => hsub k (List.mem_cons_of_mem _ hk))
        (fun k hk => hdis k (List.mem_cons_of_mem _ hk)) hinv hP
    · rw [heq]
      obtain ⟨e1, e2, e3, e4, e5, e6⟩ := hinv
      have hal : a ∉ l := (List.nodup_cons.mp hnd).1
      have hanm : a ∉ st.sfM := hdis a (List.mem_cons_self a l)
      refine ih _ (List.Nodup.of_cons hnd)
        (fun k hk => hsub k (List.mem_cons_of_mem _ hk)) ?_ ?_ ?_
      · intro k hk
        simp only [EngSt.sfM, List.mem_append, List.mem_singleton]
        rintro (hk' | rfl)
        · exact hdis k (List.mem_cons_of_mem _ hk) hk'
        · exact hal hk
      · refine ⟨?_, ?_, ?_, ?_, ?_, ?_⟩
        · simp [List.map_append, e1, hrsf]
        · simp [List.map_append, e2]
        · exact ((List.perm_append_singleton a st.sfM).nodup_iff).mpr
            (List.nodup_cons.mpr ⟨hanm, e3⟩)
        · exact ((List.perm_append_singleton r.sp st.spM).nodup_iff).mpr
            (List.nodup_cons.mpr ⟨hrnm, e4⟩)
        · intro k hk
          rcases List.mem_append.mp hk with hk' | hk'
          · exact e5 k hk'
          · rw [List.mem_singleton.mp hk']
            exact hsub a (List.mem_cons_self a l)
        · intro k hk
          rcases List.mem_append.mp hk with hk' | hk'
          · exact e6 k hk'
          · rw [List.mem_singleton.mp hk']
            exact hrsp
      · intro r' hr'
        rcases List.mem_append.mp hr' with hr'' | hr''
        · exact hP r' hr''
        · rw [List.mem_singleton.mp hr'']
          exact hPr

theorem engineCore_master (sc : String → String → Nat) (sfU spU : List String)
    (opp : String → Option String) (T : Int) (P : MatchRow → Prop)
    (hP1 : ∀ sfk p bsp, extract_project_name sfk = some p → bsp ∈ groupProj spU p →
      0 < sc sfk bsp → T ≤ ((sc sfk bsp : ℕ) : ℤ) →
      P ⟨sfk, bsp, sc sfk bsp, "project_name"⟩)
    (hP2 : ∀ sfk bsp, bsp ∈ spU →
      (∀ p q, extract_project_name sfk = some p → extract_project_name bsp = some q → p = q) →
      0 < sc sfk bsp → T ≤ ((sc sfk bsp : ℕ) : ℤ) →
      P ⟨sfk, bsp, sc sfk bsp, "token_fuzzy"⟩)
    (hP3 : ∀ sfk o p bsp, opp sfk = some o → extract_project_name o = some p →
      extract_project_name sfk = none → bsp ∈ groupProj spU p →
      0 < max (sc sfk bsp) (sc (altKey p sfk) bsp) →
      max (T - 10) 60 ≤ ((max (sc sfk bsp) (sc (altKey p sfk) bsp) : ℕ) : ℤ) →
      P ⟨sfk, bsp, max (sc sfk bsp) (sc (altKey p sfk) bsp), oppMethod p⟩)
    (hnd : sfU.Nodup) :
    EngInv sfU spU (engineCore sc sfU spU opp T) ∧
    ∀ r ∈ (engineCore sc sfU spU opp T).rows, P r := by
  have hperm := @List.perm_insertionSort String (· ≤ ·) decStrLe sfU
  have hnd1 : (sortKeys sfU).Nodup := hperm.nodup_iff.mpr hnd
  have hsub1 : ∀ k ∈ sortKeys sfU, k ∈ sfU := fun k hk => hperm.mem_iff.mp hk
  have base : EngInv sfU spU ⟨[], [], []⟩ :=
    ⟨rfl, rfl, List.nodup_nil, List.nodup_nil, by simp, by simp⟩
  have h1 := foldl_stepshape spU P (pass1Step sc spU T) sfU
    (pass1Step_shape sc spU T P hP1) (sortKeys sfU) ⟨[], [], []⟩ hnd1 hsub1
    (by simp) base (by simp)
  have h2 := foldl_stepshape spU P
    (pass2Step sc (spU.filter (fun k =>
      !((sortKeys sfU).foldl (pass1Step sc spU T) ⟨[], [], []⟩).spM.contains k)) T) sfU
    (pass2Step_shape sc _ spU T
      (fun k hk => (List.mem_filter.mp hk).1) P hP2)
    ((sortKeys sfU).filter (fun k =>
      !((sortKeys sfU).foldl (pass1Step sc spU T) ⟨[], [], []⟩).sfM.contains k))
    ((sortKeys sfU).foldl (pass1Step sc spU T) ⟨[], [], []⟩)
    (hnd1.filter _)
    (fun k hk => hsub1 k (List.mem_filter.mp hk).1)
    (fun k hk => by
      have h2 := (List.mem_filter.mp hk).2
      simp only [Bool.not_eq_true'] at h2
      exact contains_false_iff.mp h2)
    h1.1 h1.2
  have h3 := foldl_stepshape spU P (pass3Step sc spU T opp) sfU
    (pass3Step_shape sc spU T opp P hP3)
    ((sortKeys sfU).filter (fun k =>
      !(((sortKeys sfU).filter (fun k =>
          !((sortKeys sfU).foldl (pass1Step sc spU T) ⟨[], [], []⟩).sfM.contains k)).foldl
        (pass2Step sc (spU.filter (fun k =>
          !((sortKeys sfU).foldl (pass1Step sc spU T) ⟨[], [], []⟩).spM.contains k)) T)
        ((sortKeys sfU).foldl (pass1Step sc spU T) ⟨[], [], []⟩)).sfM.contains k))
    _
    (hnd1.filter _)
    (fun k hk => hsub1 k (List.mem_filter.mp hk).1)
    (fun k hk => by
      have h2 := (List.mem_filter.mp hk).2
      simp only [Bool.not_eq_true'] at h2
      exact contains_false_iff.mp h2)
    h2.1 h2.2
  exact h3

/-! ## Permutation helpers for the partition claim -/

theorem perm_of_nodup_ext {l m : List String} (hl : l.Nodup) (hm : m.Nodup)
    (h : ∀ x, x ∈ l ↔ x ∈ m) : List.Perm l m := by
  rw [List.perm_iff_count]
  intro a
  by_cases ha : a ∈ l
  · rw [List.count_eq_one_of_mem hl ha, List.count_eq_one_of_mem hm ((h a).mp ha)]
  · rw [List.count_eq_zero_of_not_mem ha,
      List.count_eq_zero_of_not_mem (fun hm' => ha ((h a).mpr hm'))]

theorem perm_matched_filter {m l : List String} (hm : m.Nodup) (hl : l.Nodup)
    (hsub : ∀ x ∈ m, x ∈ l) : List.Perm (m ++ l.filter (fun x => !m.contains x)) l := by
  rw [List.perm_iff_count]
  intro a
  rw [List.count_append]
  by_cases ha : a ∈ m
  · rw [List.count_eq_one_of_mem hm ha, List.count_eq_one_of_mem hl (hsub a ha)]
    have hnot : a ∉ l.filter (fun x => !m.contains x) := by
      intro hmem
      have h2 := (List.mem_filter.mp hmem).2
      simp only [Bool.not_eq_true'] at h2
      exact absurd ha (contains_false_iff.mp h2)
    rw [List.count_eq_zero_of_not_mem hnot]
  · rw [List.count_eq_zero_of_not_mem ha, Nat.zero_add]
    have hpa : (!m.contains a) = true := by
      simp only [Bool.not_eq_true']
      exact contains_false_iff.mpr ha
    exact List.count_filter hpa

/-! ## Method-tag helpers -/

theorem oppMethod_length (p : String) :
    (oppMethod p).length = 24 + (titleWord p).length := by
  unfold oppMethod
  rw [String.length_append, String.length_append]
  show 23 + ((titleWord p).length + 1) = 24 + (titleWord p).length
  omega

theorem oppMethod_ne_project (p : String) : oppMethod p ≠ "project_name" := by
  intro h
  have h2 := congrArg String.length h
  rw [oppMethod_length] at h2
  have h3 : ("project_name").length = 12 := rfl
  rw [h3] at h2
  omega

theorem oppMethod_ne_token (p : String) : oppMethod p ≠ "token_fuzzy" := by
  intro h
  have h2 := congrArg String.length h
  rw [oppMethod_length] at h2
  have h3 : ("token_fuzzy").length = 11 := rfl
  rw [h3] at h2
  omega

theorem extract_empty : extract_project_name "" = none := by decide

/-! ## C3 -/

/-- C3: in every fuzzy match the engine commits, a left key with a codename
is only ever paired with a right key whose codename (if any) is the same —
and in particular the Orange/Quartz teaser pair is never matched. -/
theorem c3_cross_codename_guard {sfU spU : List String} {opp : String → Option String}
    {T : Int} {r : MatchRow} (hnd : sfU.Nodup)
    (hr : r ∈ (find_fuzzy_matches sfU spU opp T).rows) :
    (∀ p q, extract_project_name r.sf = some p → extract_project_name r.sp = some q → p = q) ∧
    ¬(r.sf = "Project Orange Teaser.pdf" ∧ r.sp = "Project Quartz Teaser.pdf") := by
  have hP1 : ∀ sfk p bsp, extract_project_name sfk = some p → bsp ∈ groupProj spU p →
      0 < fuzzy_score sfk bsp → T ≤ ((fuzzy_score sfk bsp : ℕ) : ℤ) →
      ∀ p' q', extract_project_name sfk = some p' → extract_project_name bsp = some q' →
        p' = q' := by
    intro sfk p bsp hp hg _ _ p' q' hp' hq'
    rw [hp] at hp'
    rw [groupProj_extract hg] at hq'
    injection hp' with h1
    injection hq' with h2
    rw [← h1, ← h2]
  have hP2 : ∀ sfk bsp, bsp ∈ spU →
      (∀ p q, extract_project_name sfk = some p → extract_project_name bsp = some q → p = q) →
      0 < fuzzy_score sfk bsp → T ≤ ((fuzzy_score sfk bsp : ℕ) : ℤ) →
      ∀ p' q', extract_project_name sfk = some p' → extract_project_name bsp = some q' →
        p' = q' := by
    intro sfk bsp _ hcompat _ _
    exact hcompat
  have hP3 : ∀ sfk o p bsp, opp sfk = some o → extract_project_name o = some p →
      extract_project_name sfk = none → bsp ∈ groupProj spU p →
      0 < max (fuzzy_score sfk bsp) (fuzzy_score (altKey p sfk) bsp) →
      max (T - 10) 60 ≤ ((max (fuzzy_score sfk bsp) (fuzzy_score (altKey p sfk) bsp) : ℕ) : ℤ) →
      ∀ p' q', extract_project_name sfk = some p' → extract_project_name bsp = some q' →
        p' = q' := by
    intro sfk o p bsp _ _ hfp _ _ _ p' q' hp' _
    rw [hfp] at hp'
    cases hp'
  have hm := engineCore_master fuzzy_score sfU spU opp T
    (fun row => ∀ p q, extract_project_name row.sf = some p →
      extract_project_name row.sp = some q → p = q) hP1 hP2 hP3 hnd
  have h1 := hm.2 r hr
  refine ⟨h1, fun hc => ?_⟩
  have h2 := h1 "orange" "quartz" (by rw [hc.1]; decide) (by rw [hc.2]; decide)
  exact absurd h2 (by decide)

theorem c3_witness :
    ¬((⟨"project zeus cim x", "project-zeus-cim x", 100, "project_name"⟩ : MatchRow).sf =
        "Project Orange Teaser.pdf" ∧
      (⟨"project zeus cim x", "project-zeus-cim x", 100, "project_name"⟩ : MatchRow).sp =
        "Project Quartz Teaser.pdf") :=
  (c3_cross_codename_guard
    (by decide : (["project zeus cim x"] : List String).Nodup)
    (by rw [find_fuzzy_matches_eq_core]; decide :
      (⟨"project zeus cim x", "project-zeus-cim x", 100, "project_name"⟩ : MatchRow) ∈
        (find_fuzzy_matches ["project zeus cim x"] ["project-zeus-cim x"]
          (fun _ => none) 70).rows)).2

/-! ## C6 -/

/-- C6 counterexample: with these two left keys and two right keys, the run
at threshold 70 commits one fuzzy pair but the run at the higher threshold
80 commits two — the number of fuzzy matches is not antitone in the
threshold. -/
theorem c6_counterexample :
    (70 : ℤ) ≤ (80 : ℤ) ∧
    (find_fuzzy_matches ["project alpha report one", "alpha report summary"]
      ["project alpha report summary", "alpha report one project"]
      (fun _ => none) 70).rows.length = 1 ∧
    (find_fuzzy_matches ["project alpha report one", "alpha report summary"]
      ["project alpha report summary", "alpha report one project"]
      (fun _ => none) 80).rows.length = 2 := by
  refine ⟨by norm_num, ?_, ?_⟩ <;> (rw [find_fuzzy_matches_eq_core]; decide)

/-- C6 amended: what is true of the threshold is that every committed pair
meets its pass's score bar — the threshold itself for the first two passes,
`max(T − 10, 60)` for the opp-name pass. -/
theorem c6_pass_bar {sfU spU : List String} {opp : String → Option String}
    {T : Int} {r : MatchRow} (hnd : sfU.Nodup)
    (hr : r ∈ (find_fuzzy_matches sfU spU opp T).rows) :
    (r.method = "project_name" ∨ r.method = "token_fuzzy" → T ≤ (r.score : ℤ)) ∧
    (r.method ≠ "project_name" → r.method ≠ "token_fuzzy" →
      max (T - 10) 60 ≤ (r.score : ℤ)) := by
  have hP1 : ∀ sfk p bsp, extract_project_name sfk = some p → bsp ∈ groupProj spU p →
      0 < fuzzy_score sfk bsp → T ≤ ((fuzzy_score sfk bsp : ℕ) : ℤ) →
      (("project_name" : String) = "project_name" ∨ ("project_name" : String) = "token_fuzzy" →
        T ≤ ((fuzzy_score sfk bsp : ℕ) : ℤ)) ∧
      (("project_name" : String) ≠ "project_name" → ("project_name" : String) ≠ "token_fuzzy" →
        max (T - 10) 60 ≤ ((fuzzy_score sfk bsp : ℕ) : ℤ)) := by
    intro sfk p bsp _ _ _ hT
    exact ⟨fun _ => hT, fun hh _ => absurd rfl hh⟩
  have hP2 : ∀ sfk bsp, bsp ∈ spU →
      (∀ p q, extract_project_name sfk = some p → extract_project_name bsp = some q → p = q) →
      0 < fuzzy_score sfk bsp → T ≤ ((fuzzy_score sfk bsp : ℕ) : ℤ) →
      (("token_fuzzy" : String) = "project_name" ∨ ("token_fuzzy" : String) = "token_fuzzy" →
        T ≤ ((fuzzy_score sfk bsp : ℕ) : ℤ)) ∧
      (("token_fuzzy" : String) ≠ "project_name" → ("token_fuzzy" : String) ≠ "token_fuzzy" →
        max (T - 10) 60 ≤ ((fuzzy_score sfk bsp : ℕ) : ℤ)) := by
    intro sfk bsp _ _ _ hT
    exact ⟨fun _ => hT, fun _ hh => absurd rfl hh⟩
  have hP3 : ∀ sfk o p bsp, opp sfk = some o → extract_project_name o = some p →
      extract_project_name sfk = none → bsp ∈ groupProj spU p →
      0 < max (fuzzy_score sfk bsp) (fuzzy_score (altKey p sfk) bsp) →
      max (T - 10) 60 ≤ ((max (fuzzy_score sfk bsp) (fuzzy_score (altKey p sfk) bsp) : ℕ) : ℤ) →
      (oppMethod p = "project_name" ∨ oppMethod p = "token_fuzzy" →
        T ≤ ((max (fuzzy_score sfk bsp) (fuzzy_score (altKey p sfk) bsp) : ℕ) : ℤ)) ∧
      (oppMethod p ≠ "project_name" → oppMethod p ≠ "token_fuzzy" →
        max (T - 10) 60 ≤ ((max (fuzzy_score sfk bsp) (fuzzy_score (altKey p sfk) bsp) : ℕ) : ℤ)) := by
    intro sfk o p bsp _ _ _ _ _ hT
    refine ⟨fun hc => ?_, fun _ _ => hT⟩
    rcases hc with hc | hc
    · exact absurd hc (oppMethod_ne_project p)
    · exact absurd hc (oppMethod_ne_token p)
  have hm := engineCore_master fuzzy_score sfU spU opp T
    (fun row => (row.method = "project_name" ∨ row.method = "token_fuzzy" →
        T ≤ (row.score : ℤ)) ∧
      (row.method ≠ "project_name" → row.method ≠ "token_fuzzy" →
        max (T - 10) 60 ≤ (row.score : ℤ))) hP1 hP2 hP3 hnd
  exact hm.2 r hr

theorem c6_witness : (70 : ℤ) ≤ ((100 : ℕ) : ℤ) :=
  (c6_pass_bar
    (by decide : (["project zeus cim x"] : List String).Nodup)
    (by rw [find_fuzzy_matches_eq_core]; decide :
      (⟨"project zeus cim x", "project-zeus-cim x", 100, "project_name"⟩ : MatchRow) ∈
        (find_fuzzy_matches ["project zeus cim x"] ["project-zeus-cim x"]
          (fun _ => none) 70).rows)).1 (Or.inl rfl)

/-! ## C2 -/

/-- C2 counterexample: the same right-side key set presented in two
iteration orders (both legitimate orders of the unordered `set`) makes the
engine commit different pairs — a score tie is broken by whichever candidate
is seen first. -/
theorem c2_counterexample :
    List.Perm ["project-alpha-one x", "project_alpha_one x"]
      ["project_alpha_one x", "project-alpha-one x"] ∧
    (find_fuzzy_matches ["project alpha one x"]
        ["project-alpha-one x", "project_alpha_one x"] (fun _ => none) 70).rows ≠
      (find_fuzzy_matches ["project alpha one x"]
        ["project_alpha_one x", "project-alpha-one x"] (fun _ => none) 70).rows := by
  constructor
  · decide
  · rw [find_fuzzy_matches_eq_core]
    decide

/-- C2 amended: determinism holds in the left keys up to order — the engine
sorts the left key collection, so permuting it never changes the result; the
right-side iteration order, however, does reach the output (see the
counterexample). -/
theorem c2_left_perm_invariant (sfU1 sfU2 spU : List String)
    (opp : String → Option String) (T : Int) (h : List.Perm sfU1 sfU2) :
    find_fuzzy_matches sfU1 spU opp T = find_fuzzy_matches sfU2 spU opp T := by
  have hs : sortKeys sfU1 = sortKeys sfU2 := by
    have hp : List.Perm (sortKeys sfU1) (sortKeys sfU2) :=
      ((@List.perm_insertionSort String (· ≤ ·) decStrLe sfU1).trans h).trans
        (@List.perm_insertionSort String (· ≤ ·) decStrLe sfU2).symm
    have hs1 : List.Sorted (fun a b : String => a ≤ b) (sortKeys sfU1) :=
      @List.sorted_insertionSort String (· ≤ ·) decStrLe _ _ sfU1
    have hs2 : List.Sorted (fun a b : String => a ≤ b) (sortKeys sfU2) :=
      @List.sorted_insertionSort String (· ≤ ·) decStrLe _ _ sfU2
    exact List.eq_of_perm_of_sorted hp hs1 hs2
  unfold find_fuzzy_matches engineCore
  rw [hs]

theorem c2_witness :
    List.Perm ["b", "a"] ["a", "b"] ∧
    find_fuzzy_matches ["b", "a"] ["x"] (fun _ => none) 70 =
      find_fuzzy_matches ["a", "b"] ["x"] (fun _ => none) 70 :=
  ⟨by decide, c2_left_perm_invariant _ _ _ _ _ (by decide)⟩

/-! ## C4 -/

theorem seqRatioQ_nonneg (na nb : String) : 0 ≤ seqRatioQ na nb := by
  unfold seqRatioQ calcRatioQ
  split
  · norm_num
  · positivity

theorem jaccardQ_nonneg (na nb : String) : 0 ≤ jaccardQ na nb := by
  unfold jaccardQ
  split
  · positivity
  · exact le_refl 0

/-- C4 counterexample: on `"abcde"` vs `"abcdex"` the exact score is
600/11 ≈ 54.55, which the source truncates to 54 while the specification's
`round` gives 55. -/
theorem c4_counterexample :
    ((fuzzy_score "abcde" "abcdex" : ℕ) : ℤ) ≠ specScoreRound "abcde" "abcdex" := by
  have hL : fuzzy_score "abcde" "abcdex" = 54 := by
    rw [fuzzy_score_eval]; decide
  have hn1 : normalize_for_fuzzy "abcde" = "abcde" := by decide
  have hn2 : normalize_for_fuzzy "abcdex" = "abcdex" := by decide
  have hs : seqRatioQ "abcde" "abcdex" = 10 / 11 := by
    unfold seqRatioQ calcRatioQ
    rw [if_neg (by decide), show seqM "abcde".toList "abcdex".toList = 5 from by decide,
      show ("abcde".length + "abcdex".length) = 11 from by decide]
    norm_num
  have hj : jaccardQ "abcde" "abcdex" = 0 := by
    unfold jaccardQ
    rw [if_pos ⟨by decide, by decide⟩,
      show ((tokSet "abcde" ∩ tokSet "abcdex").card) = 0 from by decide,
      show ((tokSet "abcde" ∪ tokSet "abcdex").card) = 2 from by decide]
    norm_num
  have hR : specScoreRound "abcde" "abcdex" = 55 := by
    unfold specScoreRound
    rw [if_neg (by decide), hn1, hn2, hs, hj]
    rw [show (100 : ℚ) * ((6 : ℚ) / 10 * (10 / 11) + 4 / 10 * 0) = 600 / 11 by norm_num]
    rw [round_eq, show ((600 : ℚ) / 11 + 1 / 2) = 1211 / 22 by norm_num]
    rw [Int.floor_eq_iff]
    constructor <;> norm_num
  rw [hL, hR]
  decide

/-- C4 amended: the source truncates rather than rounds — for all inputs the
score is the empty-key-guarded floor of `100 × (0.6 × sequenceRatio + 0.4 ×
jaccard)` on the two fuzzy keys, with the 0.6/0.4 weights fixed. -/
theorem c4_floor_formula (a b : String) :
    ((fuzzy_score a b : ℕ) : ℤ) = specScoreFloor a b := by
  simp only [fuzzy_score, specScoreFloor]
  by_cases h : normalize_for_fuzzy a = "" ∨ normalize_for_fuzzy b = ""
  · rw [if_pos h, if_pos h]
    rfl
  · rw [if_neg h, if_neg h]
    have h1 := seqRatioQ_nonneg (normalize_for_fuzzy a) (normalize_for_fuzzy b)
    have h2 := jaccardQ_nonneg (normalize_for_fuzzy a) (normalize_for_fuzzy b)
    have hnn : 0 ≤ ((6 : ℚ) / 10 * seqRatioQ (normalize_for_fuzzy a) (normalize_for_fuzzy b) +
        4 / 10 * jaccardQ (normalize_for_fuzzy a) (normalize_for_fuzzy b)) * 100 :=
      mul_nonneg (add_nonneg (mul_nonneg (by norm_num) h1) (mul_nonneg (by norm_num) h2))
        (by norm_num)
    rw [Int.toNat_of_nonneg (Int.floor_nonneg.mpr hnn)]
    rw [mul_comm _ (100 : ℚ)]

/-! ## C10 -/

/-- C10 counterexample: the sequence-matching component is directional, so
swapping the arguments can change the score. -/
theorem c10_counterexample : fuzzy_score "abcb" "bcab" ≠ fuzzy_score "bcab" "abcb" := by
  rw [fuzzy_score_eval, fuzzy_score_eval]
  decide

/-- C10 amended: the score is a function of the two fuzzy keys only, so it
is symmetric whenever the two fuzzy keys coincide. -/
theorem c10_symm_on_equal_keys (a b : String)
    (h : normalize_for_fuzzy a = normalize_for_fuzzy b) :
    fuzzy_score a b = fuzzy_score b a := by
  simp only [fuzzy_score]
  rw [h]

theorem c10_witness :
    normalize_for_fuzzy "Alpha Beta.pdf" = normalize_for_fuzzy "alpha beta" ∧
    fuzzy_score "Alpha Beta.pdf" "alpha beta" = fuzzy_score "alpha beta" "Alpha Beta.pdf" :=
  ⟨by decide, c10_symm_on_equal_keys "Alpha Beta.pdf" "alpha beta" (by decide)⟩

/-! ## C8 -/

/-- C8: the source never validates the threshold — an out-of-range value is
neither rejected nor clamped but flows into the engine: at 150 the same
inputs produce no pairs, at 100 (the value a clamp would use) and at −5 they
produce the score-100 pair. -/
theorem c8_threshold_used_not_rejected :
    (comparePartition ["project zeus cim x"] ["project-zeus-cim x"] true 150
      (fun _ => none)).fuzzyRows = [] ∧
    (comparePartition ["project zeus cim x"] ["project-zeus-cim x"] true 100
      (fun _ => none)).fuzzyRows =
      [⟨"project zeus cim x", "project-zeus-cim x", 100, "project_name"⟩] ∧
    (comparePartition ["project zeus cim x"] ["project-zeus-cim x"] true (-5)
      (fun _ => none)).fuzzyRows =
      [⟨"project zeus cim x", "project-zeus-cim x", 100, "project_name"⟩] := by
  refine ⟨?_, ?_, ?_⟩ <;>
    (unfold comparePartition; rw [find_fuzzy_matches_eq_core]; decide)

theorem find_fuzzy_matches_def : find_fuzzy_matches = engineCore fuzzy_score := rfl

theorem extract_empty_none : extract_project_name "" = none := by decide

/-! ## C7: characterization of the opp-name cross-reference pass -/

/-- C7: a still-unmatched left key participates in the opp-name pass only if
its own name yields no codename while its Opp Name yields one with
right-side candidates; each candidate is scored as the max of the raw key
and the codename-prefixed fuzzy key against it, the best candidate is
maximal among unskipped candidates and is committed iff its score meets
`max(T − 10, 60)`, tagged with the pass's method string. -/
theorem c7_pass3_spec (sc : String → String → Nat) (spU : List String) (T : Int)
    (opp : String → Option String) (st : EngSt) (sfk : String) :
    ((opp sfk = none ∨ (∃ p, extract_project_name sfk = some p) ∨
        (∀ o, opp sfk = some o → extract_project_name o = none) ∨
        (∀ o p, opp sfk = some o → extract_project_name o = some p →
          groupProj spU p = [])) →
      pass3Step sc spU T opp st sfk = st) ∧
    (∀ o p bs bsp, opp sfk = some o → extract_project_name o = some p →
      extract_project_name sfk = none →
      bestLoop (fun sp => max (sc sfk sp) (sc (altKey p sfk) sp))
          (fun sp => st.spM.contains sp) (groupProj spU p) = (bs, some bsp) →
      bsp ∈ groupProj spU p ∧ st.spM.contains bsp = false ∧
      bs = max (sc sfk bsp) (sc (altKey p sfk) bsp) ∧
      (∀ x ∈ groupProj spU p, st.spM.contains x = false →
        max (sc sfk x) (sc (altKey p sfk) x) ≤ bs) ∧
      (max (T - 10) 60 ≤ (bs : ℤ) →
        pass3Step sc spU T opp st sfk =
          ⟨st.rows ++ [⟨sfk, bsp, bs, oppMethod p⟩], st.sfM ++ [sfk], st.spM ++ [bsp]⟩) ∧
      (¬ max (T - 10) 60 ≤ (bs : ℤ) → pass3Step sc spU T opp st sfk = st)) := by
  constructor
  · intro h
    rcases h with ho | ⟨p, hp⟩ | hno | hemp
    · simp only [pass3Step, ho]
    · cases hop : opp sfk with
      | none => simp only [pass3Step, hop]
      | some o =>
        cases hoe : extract_project_name o with
        | none => simp only [pass3Step, hop, hoe]
        | some q => simp only [pass3Step, hop, hoe, hp]
    · cases hop : opp sfk with
      | none => simp only [pass3Step, hop]
      | some o =>
        have h2 := hno o hop
        cases hfe : extract_project_name sfk with
        | none => simp only [pass3Step, hop, h2, hfe]
        | some q => simp only [pass3Step, hop, h2, hfe]
    · cases hop : opp sfk with
      | none => simp only [pass3Step, hop]
      | some o =>
        cases hoe : extract_project_name o with
        | none => simp only [pass3Step, hop, hoe]
        | some q =>
          cases hfe : extract_project_name sfk with
          | some q2 => simp only [pass3Step, hop, hoe, hfe]
          | none =>
            have h2 := hemp o q hop hoe
            simp only [pass3Step, hop, hoe, hfe]
            rw [if_pos h2]
  · intro o p bs bsp ho hop hfp hbl
    obtain ⟨hm, hsk, hbs, hpos⟩ := bestLoop_some_spec hbl
    have hmax : ∀ x ∈ groupProj spU p, st.spM.contains x = false →
        max (sc sfk x) (sc (altKey p sfk) x) ≤ bs := by
      intro x hx hskx
      have h3 := @bestLoop_fst_max (fun sp => max (sc sfk sp) (sc (altKey p sfk) sp))
        (fun sp => st.spM.contains sp) (groupProj spU p) x hx hskx
      rw [hbl] at h3
      exact h3
    have hgne : ¬ groupProj spU p = [] := List.ne_nil_of_mem hm
    have hbne : bsp ≠ "" := by
      intro he
      have h4 := groupProj_extract hm
      rw [he, extract_empty_none] at h4
      cases h4
    refine ⟨hm, hsk, hbs, hmax, ?_, ?_⟩
    · intro hbar
      simp only [pass3Step, ho, hop, hfp]
      rw [if_neg hgne, hbl]
      show (if bsp ≠ "" ∧ max (T - 10) 60 ≤ (bs : Int) then
          (⟨st.rows ++ [⟨sfk, bsp, bs, oppMethod p⟩],
            st.sfM ++ [sfk], st.spM ++ [bsp]⟩ : EngSt)
        else st) = _
      rw [if_pos ⟨hbne, hbar⟩]
    · intro hbar
      simp only [pass3Step, ho, hop, hfp]
      rw [if_neg hgne, hbl]
      show (if bsp ≠ "" ∧ max (T - 10) 60 ≤ (bs : Int) then
          (⟨st.rows ++ [⟨sfk, bsp, bs, oppMethod p⟩],
            st.sfM ++ [sfk], st.spM ++ [bsp]⟩ : EngSt)
        else st) = _
      rw [if_neg (fun hc => hbar hc.2)]

theorem c7_witness :
    pass3Step scoreNat ["project resurgence chenmed"] 70
      (fun s => if s = "chenmed cim" then some "chenmed (project resurgence)" else none)
      ⟨[], [], []⟩ "chenmed cim" =
      ⟨[⟨"chenmed cim", "project resurgence chenmed", 85,
          "opp_name_xref (Project Resurgence)"⟩],
        ["chenmed cim"], ["project resurgence chenmed"]⟩ :=
  (((c7_pass3_spec scoreNat ["project resurgence chenmed"] 70
      (fun s => if s = "chenmed cim" then some "chenmed (project resurgence)" else none)
      ⟨[], [], []⟩ "chenmed cim").2
    "chenmed (project resurgence)" "resurgence" 85 "project resurgence chenmed"
    (by decide) (by decide) (by decide) (by decide)).2.2.2.2.1 (by decide))

/-! ## C1: the output partitions each side's exact keys -/

/-- C1: for duplicate-free key sets on each side, the partition is exact —
each side's keys are, up to order, the in-both keys plus that side's fuzzy
pair keys plus that side's only-keys, and the concatenation is
duplicate-free (no key in two parts, no key in two fuzzy pairs). -/
theorem c1_partition {sfKeys spKeys : List String} (useFuzzy : Bool) (T : Int)
    (opp : String → Option String) (hsf : sfKeys.Nodup) (hsp : spKeys.Nodup) :
    List.Perm ((comparePartition sfKeys spKeys useFuzzy T opp).in_both ++
      (comparePartition sfKeys spKeys useFuzzy T opp).fuzzyRows.map MatchRow.sf ++
      (comparePartition sfKeys spKeys useFuzzy T opp).only_sf) sfKeys ∧
    List.Perm ((comparePartition sfKeys spKeys useFuzzy T opp).in_both ++
      (comparePartition sfKeys spKeys useFuzzy T opp).fuzzyRows.map MatchRow.sp ++
      (comparePartition sfKeys spKeys useFuzzy T opp).only_sp) spKeys ∧
    ((comparePartition sfKeys spKeys useFuzzy T opp).in_both ++
      (comparePartition sfKeys spKeys useFuzzy T opp).fuzzyRows.map MatchRow.sf ++
      (comparePartition sfKeys spKeys useFuzzy T opp).only_sf).Nodup ∧
    ((comparePartition sfKeys spKeys useFuzzy T opp).in_both ++
      (comparePartition sfKeys spKeys useFuzzy T opp).fuzzyRows.map MatchRow.sp ++
      (comparePartition sfKeys spKeys useFuzzy T opp).only_sp).Nodup := by
  have hboth : List.Perm (sfKeys.filter (fun k => spKeys.contains k))
      (spKeys.filter (fun k => sfKeys.contains k)) := by
    refine perm_of_nodup_ext (hsf.filter _) (hsp.filter _) ?_
    intro x
    simp only [List.mem_filter]
    constructor
    · rintro ⟨hx1, hx2⟩
      exact ⟨contains_true_iff.mp hx2, contains_true_iff.mpr hx1⟩
    · rintro ⟨hx1, hx2⟩
      exact ⟨contains_true_iff.mp hx2, contains_true_iff.mpr hx1⟩
  cases useFuzzy with
  | false =>
    simp only [comparePartition, Bool.false_eq_true, if_false]
    simp only [List.map_nil, List.append_nil]
    have h1 : List.Perm (sfKeys.filter (fun k => spKeys.contains k) ++
        sfKeys.filter (fun k => !spKeys.contains k)) sfKeys :=
      List.filter_append_perm _ _
    have h2 : List.Perm (sfKeys.filter (fun k => spKeys.contains k) ++
        spKeys.filter (fun k => !sfKeys.contains k)) spKeys :=
      (List.Perm.append hboth (List.Perm.refl _)).trans (List.filter_append_perm _ _)
    exact ⟨h1, h2, h1.nodup_iff.mpr hsf, h2.nodup_iff.mpr hsp⟩
  | true =>
    simp only [comparePartition, if_true]
    rw [find_fuzzy_matches_def]
    set st := engineCore fuzzy_score (sfKeys.filter
      (fun k => !spKeys.contains k)) (spKeys.filter
      (fun k => !sfKeys.contains k)) opp T with hst
    have hndSf := hsf.filter (fun k => !spKeys.contains k)
    have hndSp := hsp.filter (fun k => !sfKeys.contains k)
    have hmaster := engineCore_master fuzzy_score
      (sfKeys.filter (fun k => !spKeys.contains k))
      (spKeys.filter (fun k => !sfKeys.contains k)) opp T (fun _ => True)
      (fun _ _ _ _ _ _ _ => trivial) (fun _ _ _ _ _ _ => trivial)
      (fun _ _ _ _ _ _ _ _ _ _ => trivial) hndSf
    rw [← hst] at hmaster
    obtain ⟨⟨e1, e2, e3, e4, e5, e6⟩, -⟩ := hmaster
    rw [e1, e2, List.append_assoc, List.append_assoc]
    have h1 : List.Perm (sfKeys.filter (fun k => spKeys.contains k) ++
        (st.sfM ++ (sfKeys.filter (fun k => !spKeys.contains k)).filter
          (fun k => !st.sfM.contains k))) sfKeys :=
      (List.Perm.append_left _ (perm_matched_filter e3 hndSf e5)).trans
        (List.filter_append_perm _ _)
    have h2 : List.Perm (sfKeys.filter (fun k => spKeys.contains k) ++
        (st.spM ++ (spKeys.filter (fun k => !sfKeys.contains k)).filter
          (fun k => !st.spM.contains k))) spKeys :=
      (List.Perm.append hboth (perm_matched_filter e4 hndSp e6)).trans
        (List.filter_append_perm _ _)
    exact ⟨h1, h2, h1.nodup_iff.mpr hsf, h2.nodup_iff.mpr hsp⟩

theorem c1_witness :
    List.Perm ((comparePartition ["a", "b"] ["b", "c"] false 70 (fun _ => none)).in_both ++
      (comparePartition ["a", "b"] ["b", "c"] false 70 (fun _ => none)).fuzzyRows.map
        MatchRow.sf ++
      (comparePartition ["a", "b"] ["b", "c"] false 70 (fun _ => none)).only_sf)
      ["a", "b"] ∧
    List.Perm ((comparePartition ["a", "b"] ["b", "c"] false 70 (fun _ => none)).in_both ++
      (comparePartition ["a", "b"] ["b", "c"] false 70 (fun _ => none)).fuzzyRows.map
        MatchRow.sp ++
      (comparePartition ["a", "b"] ["b", "c"] false 70 (fun _ => none)).only_sp)
      ["b", "c"] ∧
    ((comparePartition ["a", "b"] ["b", "c"] false 70 (fun _ => none)).in_both ++
      (comparePartition ["a", "b"] ["b", "c"] false 70 (fun _ => none)).fuzzyRows.map
        MatchRow.sf ++
      (comparePartition ["a", "b"] ["b", "c"] false 70 (fun _ => none)).only_sf).Nodup ∧
    ((comparePartition ["a", "b"] ["b", "c"] false 70 (fun _ => none)).in_both ++
      (comparePartition ["a", "b"] ["b", "c"] false 70 (fun _ => none)).fuzzyRows.map
        MatchRow.sp ++
      (comparePartition ["a", "b"] ["b", "c"] false 70 (fun _ => none)).only_sp).Nodup :=
  c1_partition false 70 (fun _ => none) (by decide) (by decide)

theorem dpRun_le (l : List Char) : ∀ i j, dpRun l i j ≤ min (i + 1) (j + 1) := by
  intro i
  induction i with
  | zero =>
    intro j
    simp only [dpRun]
    split <;> omega
  | succ i ih =>
    intro j
    simp only [dpRun]
    split
    · by_cases hj : j = 0
      · rw [if_pos hj]
        omega
      · rw [if_neg hj]
        have := ih (j - 1)
        omega
    · omega

theorem dpRun_diag (l : List Char) : ∀ i, i < l.length → dpRun l i i = i + 1 := by
  intro i
  induction i with
  | zero =>
    intro h
    simp only [dpRun]
    split
    · rfl
    next hc => simp [h] at hc
  | succ i ih =>
    intro h
    simp only [dpRun]
    split
    next hc =>
      rw [if_neg (Nat.succ_ne_zero i), Nat.add_sub_cancel, ih (Nat.lt_of_succ_lt h)]
    next hc => simp [h] at hc

theorem dpRun_zero {l : List Char} {i j : Nat}
    (h : ¬(l.getD j '!' = l.getD i '!' ∧ i < l.length ∧ j < l.length)) :
    dpRun l i j = 0 := by
  cases i with
  | zero =>
    simp only [dpRun]
    rw [if_neg h]
  | succ i =>
    simp only [dpRun]
    rw [if_neg h]

/-! ## Characterizing one row of the scan -/

theorem flmRow_fst (prev : Nat → Nat) (i : Nat) :
    ∀ (cols : List Nat) (new : Nat → Nat) (best : Block) (j : Nat),
      (flmRow prev i cols new best).1 j =
        if j ∈ cols then (if j = 0 then 0 else prev (j - 1)) + 1 else new j := by
  intro cols
  induction cols with
  | nil =>
    intro new best j
    simp [flmRow]
  | cons c cs ih =>
    intro new best j
    simp only [flmRow]
    rw [ih]
    by_cases hj : j ∈ cs
    · rw [if_pos hj, if_pos (List.mem_cons_of_mem c hj)]
    · rw [if_neg hj]
      by_cases hjc : j = c
      · subst hjc
        rw [if_pos (List.mem_cons_self j cs)]
        simp
      · rw [if_neg (by simp [hjc, hj])]
        simp [hjc, hj]

theorem flmRow_snd (prev : Nat → Nat) (i : Nat) :
    ∀ (cols : List Nat) (new : Nat → Nat) (best : Block),
      (flmRow prev i cols new best).2 =
        cols.foldl (fun b j =>
          if b.size < (if j = 0 then 0 else prev (j - 1)) + 1 then
            ⟨i + 1 - ((if j = 0 then 0 else prev (j - 1)) + 1),
             j + 1 - ((if j = 0 then 0 else prev (j - 1)) + 1),
             (if j = 0 then 0 else prev (j - 1)) + 1⟩
          else b) best := by
  intro cols
  induction cols with
  | nil =>
    intro new best
    simp [flmRow]
  | cons c cs ih =>
    intro new best
    simp only [flmRow, List.foldl_cons]
    rw [ih]

theorem fold_stay (i : Nat) (prev : Nat → Nat) :
    ∀ (cols : List Nat) (b : Block),
      (∀ j ∈ cols, (if j = 0 then 0 else prev (j - 1)) + 1 ≤ b.size) →
      cols.foldl (fun (bb : Block) (j : Nat) =>
        if bb.size < (if j = 0 then 0 else prev (j - 1)) + 1 then
          (⟨i + 1 - ((if j = 0 then 0 else prev (j - 1)) + 1),
            j + 1 - ((if j = 0 then 0 else prev (j - 1)) + 1),
            (if j = 0 then 0 else prev (j - 1)) + 1⟩ : Block)
        else bb) b = b := by
  intro cols
  induction cols with
  | nil =>
    intro b _
    rfl
  | cons c cs ih =>
    intro b hb
    rw [List.foldl_cons,
      if_neg (by have := hb c (List.mem_cons_self c cs); omega)]
    exact ih b (fun j hj => hb j (List.mem_cons_of_mem c hj))

theorem fold_diag (i : Nat) (prev : Nat → Nat) :
    ∀ (cols : List Nat), cols.Pairwise (· < ·) → i ∈ cols →
      (∀ j ∈ cols, (if j = 0 then 0 else prev (j - 1)) + 1 ≤ min (i + 1) (j + 1)) →
      (if i = 0 then 0 else prev (i - 1)) + 1 = i + 1 →
      cols.foldl (fun (bb : Block) (j : Nat) =>
        if bb.size < (if j = 0 then 0 else prev (j - 1)) + 1 then
          (⟨i + 1 - ((if j = 0 then 0 else prev (j - 1)) + 1),
            j + 1 - ((if j = 0 then 0 else prev (j - 1)) + 1),
            (if j = 0 then 0 else prev (j - 1)) + 1⟩ : Block)
        else bb) ⟨0, 0, i⟩ = ⟨0, 0, i + 1⟩ := by
  intro cols
  induction cols with
  | nil =>
    intro _ hi _ _
    cases hi
  | cons c cs ih =>
    intro hpw hi hbnd hki
    rw [List.foldl_cons]
    by_cases hci : c = i
    · subst hci
      have hlt : (⟨0, 0, c⟩ : Block).size < (if c = 0 then 0 else prev (c - 1)) + 1 := by
        show c < (if c = 0 then 0 else prev (c - 1)) + 1
        rw [hki]
        exact Nat.lt_succ_self c
      rw [if_pos hlt, hki, Nat.sub_self]
      exact fold_stay c prev cs ⟨0, 0, c + 1⟩
        (fun j hj => by
          have h1 := hbnd j (List.mem_cons_of_mem c hj)
          show (if j = 0 then 0 else prev (j - 1)) + 1 ≤ c + 1
          omega)
    · have hic : i ∈ cs := by
        rcases List.mem_cons.mp hi with h | h
        · exact absurd h.symm hci
        · exact h
      have hclt : c < i := (List.pairwise_cons.mp hpw).1 i hic
      have hble : (if c = 0 then 0 else prev (c - 1)) + 1 ≤ c + 1 :=
        le_trans (hbnd c (List.mem_cons_self c cs)) (min_le_right _ _)
      rw [if_neg (by show ¬ ((⟨0, 0, i⟩ : Block).size < _); show ¬ (i < _); omega)]
      exact ih (List.pairwise_cons.mp hpw).2 hic
        (fun j hj => hbnd j (List.mem_cons_of_mem c hj)) hki

/-! ## The scan on identical strings -/

theorem flmScan_diag (l : List Char) :
    ∀ (fuel i : Nat) (j2l : Nat → Nat) (best : Block),
      i + fuel = l.length → (∀ j, j2l j = dps l i j) → best = ⟨0, 0, i⟩ →
      flmScan l l 0 l.length l.length fuel i j2l best = ⟨0, 0, l.length⟩ := by
  intro fuel
  induction fuel with
  | zero =>
    intro i j2l best hi hj hb
    subst hb
    have h2 : i = l.length := by omega
    subst h2
    simp only [flmScan]
  | succ fuel ih =>
    intro i j2l best hi hj hb
    have hin : i < l.length := by omega
    have hkv : ∀ j, j < l.length → l.getD j '!' = l.getD i '!' →
        (if j = 0 then 0 else j2l (j - 1)) + 1 = dpRun l i j := by
      intro j hjn hje
      rw [hj (j - 1)]
      cases i with
      | zero =>
        simp only [dps, dpRun]
        have hje2 : l[j] = l[0] := by simpa [hjn, hin] using hje
        simp [hje2, hin, hjn]
      | succ i2 =>
        simp only [dps]
        conv_rhs => rw [dpRun]
        have hje2 : l[j] = l[i2 + 1] := by simpa [hjn, hin] using hje
        simp [hje2, hin, hjn]
    simp only [flmScan]
    rw [if_pos hin]
    refine ih (i + 1) _ _ (by omega) ?_ ?_
    · intro j
      rw [flmRow_fst]
      simp only [dps]
      split
      next hmem =>
        simp only [b2jPos, List.mem_filter, List.mem_range, Bool.and_eq_true,
          decide_eq_true_eq] at hmem
        exact hkv j hmem.1.1 hmem.1.2
      next hmem =>
        simp only [b2jPos, List.mem_filter, List.mem_range, Bool.and_eq_true,
          decide_eq_true_eq] at hmem
        refine (dpRun_zero ?_).symm
        intro hc
        exact hmem ⟨⟨hc.2.2, hc.1⟩, by omega, hc.2.2⟩
    · rw [flmRow_snd, hb]
      refine fold_diag i j2l _ ?_ ?_ ?_ ?_
      · refine List.Pairwise.filter _ ?_
        simp only [b2jPos]
        exact List.Pairwise.filter _ (List.pairwise_lt_range _)
      · simp [b2jPos, List.mem_filter, List.mem_range, hin]
      · intro j hj
        simp only [b2jPos, List.mem_filter, List.mem_range, Bool.and_eq_true,
          decide_eq_true_eq] at hj
        rw [hkv j hj.1.1 hj.1.2]
        exact dpRun_le l i j
      · rw [hkv i hin rfl]
        rw [dpRun_diag l i hin]

/-! ## The extension loops never move off the diagonal block -/

theorem extBack_stop (a b : List Char) (alo blo : Nat) :
    ∀ (fuel : Nat) (t : Block),
      ¬(alo < t.bi ∧ blo < t.bj ∧ a.getD (t.bi - 1) '!' = b.getD (t.bj - 1) '?') →
      extBack a b alo blo fuel t = t := by
  intro fuel t h
  cases fuel with
  | zero => rfl
  | succ f =>
    simp only [extBack]
    rw [if_neg h]

theorem extFwd_stop (a b : List Char) (ahi bhi : Nat) :
    ∀ (fuel : Nat) (t : Block),
      ¬(t.bi + t.size < ahi ∧ t.bj + t.size < bhi ∧
        a.getD (t.bi + t.size) '!' = b.getD (t.bj + t.size) '?') →
      extFwd a b ahi bhi fuel t = t := by
  intro fuel t h
  cases fuel with
  | zero => rfl
  | succ f =>
    simp only [extFwd]
    rw [if_neg h]

theorem flm_diag (l : List Char) :
    flm l l 0 l.length 0 l.length = ⟨0, 0, l.length⟩ := by
  simp only [flm, Nat.sub_zero]
  rw [flmScan_diag l l.length 0 (fun _ => 0) ⟨0, 0, 0⟩ (by omega) (fun j => rfl) rfl]
  rw [extBack_stop l l 0 0 _ _ (by simp)]
  rw [extFwd_stop l l l.length l.length _ _ (by simp)]

/-! ## The matching-block total -/

theorem mtGo_empty (a b : List Char) :
    ∀ (fuel alo blo bhi : Nat), mtGo a b fuel alo alo blo bhi = 0 := by
  intro fuel alo blo bhi
  cases fuel with
  | zero => rfl
  | succ f =>
    have hflm : flm a b alo alo blo bhi = ⟨alo, blo, 0⟩ := by
      simp only [flm, Nat.sub_self]
      rw [show flmScan a b blo bhi alo 0 alo (fun _ => 0) ⟨alo, blo, 0⟩ = ⟨alo, blo, 0⟩
        from rfl]
      rw [extBack_stop a b alo blo _ _ (by simp)]
      rw [extFwd_stop a b alo bhi _ _ (by simp)]
    simp only [mtGo]
    rw [hflm]
    rw [if_neg (by simp)]

theorem mtGo_le (a b : List Char) :
    ∀ (fuel alo ahi blo bhi : Nat),
      mtGo a b fuel alo ahi blo bhi ≤ min (ahi - alo) (bhi - blo) := by
  intro fuel
  induction fuel with
  | zero =>
    intro alo ahi blo bhi
    simp [mtGo]
  | succ f ih =>
    intro alo ahi blo bhi
    simp only [mtGo]
    split
    next hc =>
      obtain ⟨h0, h1, h2, h3, h4⟩ := hc
      have i1 := ih alo (flm a b alo ahi blo bhi).bi blo (flm a b alo ahi blo bhi).bj
      have i2 := ih ((flm a b alo ahi blo bhi).bi + (flm a b alo ahi blo bhi).size) ahi
        ((flm a b alo ahi blo bhi).bj + (flm a b alo ahi blo bhi).size) bhi
      omega
    next => simp

theorem seqM_le (a b : List Char) : seqM a b ≤ min a.length b.length := by
  have h := mtGo_le a b ((a.length - 0) + (b.length - 0) + 1) 0 a.length 0 b.length
  simpa using h

theorem seqM_self (l : List Char) : seqM l l = l.length := by
  rcases Nat.eq_zero_or_pos l.length with h0 | hpos
  · have hl : l = [] := List.length_eq_zero.mp h0
    rw [hl]
    rfl
  · unfold seqM matchTotal
    simp only [mtGo]
    rw [flm_diag l]
    rw [if_pos (by simp [hpos])]
    dsimp only
    rw [Nat.zero_add]
    rw [mtGo_empty, mtGo_empty]
    omega

/-! ## Ratio bounds -/

theorem seqRatioQ_le_one (na nb : String) : seqRatioQ na nb ≤ 1 := by
  unfold seqRatioQ calcRatioQ
  split
  · exact le_refl 1
  next hL =>
    have hL2 : (0 : ℚ) < ((na.length + nb.length : ℕ) : ℚ) := by
      exact_mod_cast Nat.pos_of_ne_zero hL
    rw [div_le_one hL2]
    have hm := seqM_le na.toList nb.toList
    have e1 : na.toList.length = na.length := rfl
    have e2 : nb.toList.length = nb.length := rfl
    rw [e1, e2] at hm
    have h2 : 2 * seqM na.toList nb.toList ≤ na.length + nb.length := by omega
    exact_mod_cast h2

theorem jaccardQ_le_one (na nb : String) : jaccardQ na nb ≤ 1 := by
  unfold jaccardQ
  split
  next ht =>
    have hU : 0 < (tokSet na ∪ tokSet nb).card :=
      Finset.card_pos.mpr
        ((Finset.nonempty_iff_ne_empty.mpr ht.1).mono Finset.subset_union_left)
    rw [div_le_one (by exact_mod_cast hU)]
    have hc : (tokSet na ∩ tokSet nb).card ≤ (tokSet na ∪ tokSet nb).card :=
      Finset.card_le_card (le_trans Finset.inter_subset_left Finset.subset_union_left)
    exact_mod_cast hc
  next => norm_num

/-! ## The score is at most 100 -/

theorem fuzzy_score_le (a b : String) : fuzzy_score a b ≤ 100 := by
  simp only [fuzzy_score]
  split
  · omega
  next h =>
    rw [Int.toNat_le]
    have h1 := seqRatioQ_le_one (normalize_for_fuzzy a) (normalize_for_fuzzy b)
    have h2 := jaccardQ_le_one (normalize_for_fuzzy a) (normalize_for_fuzzy b)
    have h3 := seqRatioQ_nonneg (normalize_for_fuzzy a) (normalize_for_fuzzy b)
    have h4 := jaccardQ_nonneg (normalize_for_fuzzy a) (normalize_for_fuzzy b)
    have hx : ((6 : ℚ) / 10 * seqRatioQ (normalize_for_fuzzy a) (normalize_for_fuzzy b) +
        4 / 10 * jaccardQ (normalize_for_fuzzy a) (normalize_for_fuzzy b)) * 100 ≤ 100 := by
      nlinarith
    calc ⌊((6 : ℚ) / 10 * seqRatioQ (normalize_for_fuzzy a) (normalize_for_fuzzy b) +
          4 / 10 * jaccardQ (normalize_for_fuzzy a) (normalize_for_fuzzy b)) * 100⌋
        ≤ ⌊(100 : ℚ)⌋ := Int.floor_le_floor hx
      _ = ((100 : ℕ) : ℤ) := by norm_num

/-! ## The token set of a nonempty fuzzy key is nonempty -/

theorem splitWSAux_acc_ne : ∀ (s acc : List Char), acc ≠ [] → splitWSAux s acc ≠ [] := by
  intro s
  induction s with
  | nil =>
    intro acc h
    simp only [splitWSAux]
    rw [if_neg (by simpa using h)]
    simp
  | cons c r ih =>
    intro acc h
    simp only [splitWSAux]
    by_cases hsp : isSpaceC c = true
    · rw [if_pos hsp, if_neg (by simpa using h)]
      simp
    · rw [if_neg hsp]
      exact ih (c :: acc) (by simp)

theorem splitWSAux_ne : ∀ (s acc : List Char),
    (∃ c ∈ s, isSpaceC c = false) → splitWSAux s acc ≠ [] := by
  intro s
  induction s with
  | nil =>
    rintro acc ⟨c, hc, -⟩
    cases hc
  | cons d r ih =>
    rintro acc ⟨c, hc, hcs⟩
    simp only [splitWSAux]
    by_cases hsp : isSpaceC d = true
    · rw [if_pos hsp]
      have hcr : c ∈ r := by
        rcases List.mem_cons.mp hc with rfl | h
        · rw [hcs] at hsp
          cases hsp
        · exact h
      by_cases hae : acc.isEmpty = true
      · rw [if_pos hae]
        exact ih [] ⟨c, hcr, hcs⟩
      · rw [if_neg hae]
        simp
    · rw [if_neg hsp]
      exact splitWSAux_acc_ne r (d :: acc) (by simp)

theorem stripWS_of_all_space {Y : List Char} (h : ∀ c ∈ Y, isSpaceC c = true) :
    stripWS Y = [] := by
  unfold stripWS
  have h1 : Y.dropWhile (fun c => isSpaceC c) = [] :=
    List.dropWhile_eq_nil_iff.mpr (by intro c hc; simpa using h c hc)
  rw [h1]
  rfl

theorem mem_dropWhile_of_neg {p : Char → Bool} :
    ∀ {l : List Char} {c : Char}, c ∈ l → p c = false → c ∈ l.dropWhile p := by
  intro l
  induction l with
  | nil =>
    intro c hc
    cases hc
  | cons d r ih =>
    intro c hc hp
    rw [List.dropWhile_cons]
    split
    next hpd =>
      rcases List.mem_cons.mp hc with rfl | h
      · rw [hp] at hpd
        cases hpd
      · exact ih h hp
    next => exact hc

theorem mem_stripWS {Y : List Char} {c : Char} (hc : c ∈ Y) (hcs : isSpaceC c = false) :
    c ∈ stripWS Y := by
  unfold stripWS
  rw [List.mem_reverse]
  refine mem_dropWhile_of_neg ?_ hcs
  rw [List.mem_reverse]
  exact mem_dropWhile_of_neg hc hcs

theorem tokSet_ne_empty {a : String} (h : normalize_for_fuzzy a ≠ "") :
    tokSet (normalize_for_fuzzy a) ≠ ∅ := by
  by_cases ha : a = ""
  · rw [ha] at h
    exact absurd rfl h
  · obtain ⟨Y, hY⟩ : ∃ Y, normalize_for_fuzzy a = String.mk (stripWS Y) :=
      ⟨joinTok (List.filter keepTok (splitWS (subst m_seps (subst m_year4 (subst m_season
          (subst m_monthAbbr (subst m_monthFull (subst m_date4 (subst m_date3 (subst m_parenYear
            (subst m_parenYear (stripExt (stripWS (List.map lowerChar a.toList)))))))))))))),
        by simp only [normalize_for_fuzzy, if_neg ha]⟩
    rw [hY] at h ⊢
    have hne : stripWS Y ≠ [] := fun hc => h (by rw [hc])
    have hex : ∃ c ∈ Y, isSpaceC c = false := by
      by_contra hall
      push_neg at hall
      refine hne (stripWS_of_all_space ?_)
      intro c hc
      have h2 := hall c hc
      cases hb : isSpaceC c
      · exact absurd hb h2
      · rfl
    obtain ⟨c, hcY, hcs⟩ := hex
    have hcS : c ∈ stripWS Y := mem_stripWS hcY hcs
    unfold tokSet
    rw [show (String.mk (stripWS Y)).toList = stripWS Y from rfl]
    intro hemp
    rw [List.toFinset_eq_empty_iff] at hemp
    exact splitWSAux_ne (stripWS Y) [] ⟨c, hcS, hcs⟩ (List.map_eq_nil_iff.mp hemp)

/-! ## The score of identical inputs with a nonempty fuzzy key is 100 -/

theorem fuzzy_score_self {a : String} (h : normalize_for_fuzzy a ≠ "") :
    fuzzy_score a a = 100 := by
  unfold fuzzy_score
  rw [if_neg (by simp [h])]
  have hlen : (normalize_for_fuzzy a).length ≠ 0 := by
    have := strLen_pos h
    omega
  have hseq : seqRatioQ (normalize_for_fuzzy a) (normalize_for_fuzzy a) = 1 := by
    unfold seqRatioQ calcRatioQ
    rw [if_neg (by omega)]
    rw [seqM_self]
    rw [show (normalize_for_fuzzy a).toList.length = (normalize_for_fuzzy a).length from rfl]
    have hq : ((normalize_for_fuzzy a).length : ℚ) ≠ 0 := by exact_mod_cast hlen
    push_cast
    field_simp
    ring
  have hjac : jaccardQ (normalize_for_fuzzy a) (normalize_for_fuzzy a) = 1 := by
    unfold jaccardQ
    have ht := tokSet_ne_empty h
    rw [if_pos ⟨ht, ht⟩, Finset.inter_self, Finset.union_self]
    have hcne : (tokSet (normalize_for_fuzzy a)).card ≠ 0 := fun hc0 =>
      ht (Finset.card_eq_zero.mp hc0)
    have hq : ((tokSet (normalize_for_fuzzy a)).card : ℚ) ≠ 0 := by exact_mod_cast hcne
    field_simp
  rw [hseq, hjac]
  rw [show ((6 : ℚ) / 10 * 1 + 4 / 10 * 1) * 100 = 100 by norm_num]
  rw [show ⌊(100 : ℚ)⌋ = 100 from by norm_num]
  rfl

/-! ## C5 -/

/-- C5: the score always lies in [0, 100], and on identical inputs whose
fuzzy key is non-empty it is exactly 100 (the sequence ratio and the Jaccard
overlap are both 1 there). -/
theorem c5_score_bounds (a b : String) :
    (0 : ℤ) ≤ (fuzzy_score a b : ℤ) ∧ (fuzzy_score a b : ℤ) ≤ 100 ∧
    (normalize_for_fuzzy a ≠ "" → fuzzy_score a a = 100) :=
  ⟨Int.ofNat_nonneg _, by exact_mod_cast fuzzy_score_le a b,
    fun h => fuzzy_score_self h⟩

theorem c5_witness :
    (0 : ℤ) ≤ (fuzzy_score "project eagle" "deal one" : ℤ) ∧
    fuzzy_score "project eagle" "project eagle" = 100 :=
  ⟨(c5_score_bounds "project eagle" "deal one").1,
    (c5_score_bounds "project eagle" "deal one").2.2 (by decide)⟩

/-! ## Prefix and infix helpers -/

theorem pref_infx {u v : List Char} (h : u <+: v) : u <:+: v := by
  obtain ⟨t, ht⟩ := h
  exact ⟨[], t, by simpa using ht⟩

theorem suff_infx {u v : List Char} (h : u <:+ v) : u <:+: v := by
  obtain ⟨s, hs⟩ := h
  exact ⟨s, [], by simpa using hs⟩

theorem pref_cons {d x : Char} {u X : List Char} (h : d :: u <+: x :: X) :
    d = x ∧ u <+: X := by
  rw [List.cons_prefix_cons] at h
  exact h

/-! ## Characters -/

theorem charOfNat_toNat {n : Nat} (h : n.isValidChar) : (Char.ofNat n).toNat = n := by
  unfold Char.ofNat
  rw [dif_pos h]
  rfl

theorem char_toNat_le {a b : Char} (h : a ≤ b) : a.toNat ≤ b.toNat := by
  rw [Char.le_def] at h
  exact (show a.val ≤ b.val ↔ a.val.toNat ≤ b.val.toNat from UInt32.le_def).mp h

theorem lowerChar_idem (c : Char) : lowerChar (lowerChar c) = lowerChar c := by
  by_cases h : 'A' ≤ c ∧ c ≤ 'Z'
  · have h90 : c.toNat ≤ 90 := by
      have h2 := char_toNat_le h.2
      rw [show ('Z').toNat = 90 from rfl] at h2
      exact h2
    have hval : (c.toNat + 32).isValidChar := by
      unfold Nat.isValidChar
      exact Or.inl (by omega)
    have h1 : lowerChar c = Char.ofNat (c.toNat + 32) := by
      unfold lowerChar
      rw [if_pos h]
    rw [h1]
    unfold lowerChar
    rw [if_neg]
    intro hc
    have h65a : 65 ≤ c.toNat := by
      have h2 := char_toNat_le h.1
      rw [show ('A').toNat = 65 from rfl] at h2
      exact h2
    have h2 := char_toNat_le hc.2
    rw [charOfNat_toNat hval, show ('Z').toNat = 90 from rfl] at h2
    omega
  · have h1 : lowerChar c = c := by
      unfold lowerChar
      rw [if_neg h]
    rw [h1, h1]

/-! ## leadCount -/

theorem leadCount_le_length (p : Char → Bool) : ∀ s, leadCount p s ≤ s.length := by
  intro s
  induction s with
  | nil => simp [leadCount]
  | cons c r ih =>
    simp only [leadCount, List.length_cons]
    split
    · omega
    · omega

theorem le_leadCount_of_pref {p : Char → Bool} :
    ∀ {u s : List Char}, u <+: s → (∀ c ∈ u, p c = true) → u.length ≤ leadCount p s := by
  intro u
  induction u with
  | nil =>
    intro s _ _
    simp
  | cons c u' ih =>
    intro s hu hall
    obtain ⟨t, ht⟩ := hu
    cases s with
    | nil => cases ht
    | cons d r =>
      have h1 : c = d ∧ u' ++ t = r := by
        constructor
        · exact (List.cons.injEq _ _ _ _ ▸ ht).1
        · exact (List.cons.injEq _ _ _ _ ▸ ht).2
      simp only [leadCount]
      rw [if_pos (h1.1 ▸ hall c (List.mem_cons_self c u'))]
      have h2 : u' <+: r := ⟨t, h1.2⟩
      have := ih h2 (fun x hx => hall x (List.mem_cons_of_mem c hx))
      simp only [List.length_cons]
      omega

theorem take_leadCount_all (p : Char → Bool) :
    ∀ (s : List Char) (k : Nat), k ≤ leadCount p s →
      (s.take k).length = k ∧ ∀ c ∈ s.take k, p c = true := by
  intro s
  induction s with
  | nil =>
    intro k hk
    simp only [leadCount] at hk
    interval_cases k
    simp
  | cons c r ih =>
    intro k hk
    cases k with
    | zero => simp
    | succ k' =>
      simp only [leadCount] at hk
      by_cases hp : p c = true
      · rw [if_pos hp] at hk
        have := ih k' (by omega)
        refine ⟨?_, ?_⟩
        · simp only [List.take_succ_cons, List.length_cons]
          omega
        · intro x hx
          simp only [List.take_succ_cons, List.mem_cons] at hx
          rcases hx with rfl | hx
          · exact hp
          · exact this.2 x hx
      · rw [if_neg hp] at hk
        omega

theorem getD_of_pref {u v : List Char} {d : Char} (h : u <+: v) :
    ∀ i, i < u.length → v.getD i d = u.getD i d := by
  obtain ⟨t, rfl⟩ := h
  intro i hi
  rw [List.getD_append _ _ _ _ hi]

/-! ## The substitution scanner -/

theorem substGo_chars (m : List Char → Option Nat) :
    ∀ (fuel : Nat) (s : List Char) (c : Char),
      c ∈ substGo m fuel s → c = ' ' ∨ c ∈ s := by
  intro fuel
  induction fuel with
  | zero =>
    intro s c hc
    simp [substGo] at hc
  | succ f ih =>
    intro s c hc
    cases s with
    | nil => simp [substGo] at hc
    | cons d rest =>
      simp only [substGo] at hc
      split at hc
      next n heq =>
        rcases List.mem_cons.mp hc with rfl | hc2
        · exact Or.inl rfl
        · rcases ih _ _ hc2 with h | h
          · exact Or.inl h
          · exact Or.inr (List.mem_cons_of_mem d ((List.drop_suffix n rest).subset h))
      next heq =>
        rcases List.mem_cons.mp hc with rfl | hc2
        · exact Or.inr (List.mem_cons_self c rest)
        · rcases ih _ _ hc2 with h | h
          · exact Or.inl h
          · exact Or.inr (List.mem_cons_of_mem d h)

theorem substGo_pref (m : List Char → Option Nat) :
    ∀ (fuel : Nat) (s u : List Char),
      u <+: substGo m fuel s → ' ' ∉ u → u <+: s := by
  intro fuel
  induction fuel with
  | zero =>
    intro s u hu _
    simp only [substGo] at hu
    rw [List.prefix_nil.mp hu]
    exact List.nil_prefix
  | succ f ih =>
    intro s u hu hsp
    cases s with
    | nil =>
      simp only [substGo] at hu
      rw [List.prefix_nil.mp hu]
    | cons d rest =>
      simp only [substGo] at hu
      cases u with
      | nil => exact List.nil_prefix
      | cons e u' =>
        split at hu
        next n heq =>
          obtain ⟨h1, h2⟩ := pref_cons hu
          exact absurd (h1 ▸ List.mem_cons_self e u') hsp
        next heq =>
          obtain ⟨h1, h2⟩ := pref_cons hu
          have h3 := ih rest u' h2 (fun hc => hsp (List.mem_cons_of_mem e hc))
          rw [h1]
          rw [List.cons_prefix_cons]
          exact ⟨rfl, h3⟩

theorem substGo_infx (m : List Char → Option Nat) :
    ∀ (fuel : Nat) (s u : List Char),
      u <:+: substGo m fuel s → ' ' ∉ u → u ≠ [] → u <:+: s := by
  intro fuel
  induction fuel with
  | zero =>
    intro s u hu _ hne
    simp only [substGo] at hu
    exact absurd (List.infix_nil.mp hu) hne
  | succ f ih =>
    intro s u hu hsp hne
    cases s with
    | nil =>
      simp only [substGo] at hu
      exact absurd (List.infix_nil.mp hu) hne
    | cons d rest =>
      simp only [substGo] at hu
      split at hu
      next n heq =>
        rcases List.infix_cons_iff.mp hu with hp | hi
        · cases u with
          | nil => exact absurd rfl hne
          | cons e u' =>
            obtain ⟨h1, _⟩ := pref_cons hp
            exact absurd (h1 ▸ List.mem_cons_self e u') hsp
        · have h2 := ih _ u hi hsp hne
          exact h2.trans (suff_infx ((List.drop_suffix n rest).trans (List.suffix_cons d rest)))
      next heq =>
        rcases List.infix_cons_iff.mp hu with hp | hi
        · cases u with
          | nil => exact absurd rfl hne
          | cons e u' =>
            obtain ⟨h1, h2⟩ := pref_cons hp
            have h3 := substGo_pref m f rest u' h2 (fun hc => hsp (List.mem_cons_of_mem e hc))
            refine pref_infx ?_
            rw [h1, List.cons_prefix_cons]
            exact ⟨rfl, h3⟩
        · have h2 := ih rest u hi hsp hne
          exact h2.trans (suff_infx (List.suffix_cons d rest))

theorem substGo_id (m : List Char → Option Nat) :
    ∀ (s : List Char), (∀ k, m (s.drop k) = none) →
      ∀ fuel, s.length ≤ fuel → substGo m fuel s = s := by
  intro s
  induction s with
  | nil =>
    intro _ fuel _
    cases fuel <;> rfl
  | cons c rest ih =>
    intro h fuel hf
    cases fuel with
    | zero => simp at hf
    | succ f =>
      have hm : m (c :: rest) = none := by
        have := h 0
        simpa using this
      simp only [substGo, hm]
      rw [ih (fun k => by have := h (k + 1); simpa using this) f (by simp at hf; omega)]

theorem substGo_noMatch (m : List Char → Option Nat) (hnil : m [] = none)
    (hsp : ∀ r, m (' ' :: r) = none)
    (hpos : ∀ s n, m s = some n → 1 ≤ n)
    (hGood : ∀ (c : Char) (O rest : List Char),
      (∀ u, u <+: O → ' ' ∉ u → u <+: rest) → m (c :: O) ≠ none → m (c :: rest) ≠ none) :
    ∀ (fuel : Nat) (s : List Char) (k : Nat), m ((substGo m fuel s).drop k) = none := by
  intro fuel
  induction fuel with
  | zero =>
    intro s k
    simp only [substGo, List.drop_nil]
    exact hnil
  | succ f ih =>
    intro s k
    cases s with
    | nil =>
      simp only [substGo, List.drop_nil]
      exact hnil
    | cons c rest =>
      simp only [substGo]
      split
      next n heq =>
        cases k with
        | zero =>
          simpa using hsp (substGo m f (rest.drop n))
        | succ k' =>
          simpa using ih (rest.drop n) k'
      next heq =>
        cases k with
        | zero =>
          simp only [List.drop_zero]
          by_contra hne
          have hcopy : m (c :: rest) = none := by
            rcases hmm : m (c :: rest) with _ | v
            · rfl
            · cases v with
              | zero => exact absurd (hpos _ _ hmm) (by omega)
              | succ n2 => exact absurd hmm (heq n2)
          exact absurd (hGood c (substGo m f rest) rest
            (fun u hu hs => substGo_pref m f rest u hu hs) hne) (by simp [hcopy])
        | succ k' =>
          simpa using ih rest k'

/-! ## Indexed access utilities -/

theorem getD_drop (l : List Char) : ∀ (n m : Nat) (d : Char),
    (l.drop n).getD m d = l.getD (n + m) d := by
  induction l with
  | nil => intro n m d; simp
  | cons c r ih =>
    intro n m d
    cases n with
    | zero => simp
    | succ n' =>
      rw [List.drop_succ_cons, ih n' m d, show n' + 1 + m = (n' + m) + 1 from by omega]
      rfl

theorem drop_add : ∀ (l : List Char) (n m : Nat), (l.drop n).drop m = l.drop (n + m) := by
  intro l
  induction l with
  | nil => intro n m; simp
  | cons c r ih =>
    intro n m
    cases n with
    | zero => simp
    | succ n' =>
      rw [List.drop_succ_cons, ih n' m, show n' + 1 + m = (n' + m) + 1 from by omega,
        List.drop_succ_cons]

theorem getD_mem_of_lt {l : List Char} {n : Nat} {d : Char} (h : n < l.length) :
    l.getD n d ∈ l := by
  rw [List.getD_eq_getElem l d h]
  exact List.getElem_mem h

theorem mem_of_hd {t : List Char} {c : Char} (h : t.head? = some c) : c ∈ t := by
  cases t with
  | nil => cases h
  | cons d r =>
    simp only [List.head?_cons, Option.some.injEq] at h
    rw [← h]
    exact List.mem_cons_self d r

/-! ## leadCount and indexed characters -/

theorem getD_lt_leadCount {p : Char → Bool} :
    ∀ {l : List Char} {i : Nat}, i < leadCount p l → p (l.getD i '!') = true := by
  intro l
  induction l with
  | nil =>
    intro i hi
    simp [leadCount] at hi
  | cons c r ih =>
    intro i hi
    simp only [leadCount] at hi
    by_cases hc : p c = true
    · rw [if_pos hc] at hi
      cases i with
      | zero => exact hc
      | succ i' => exact ih (by omega)
    · rw [if_neg hc] at hi
      omega

theorem leadCount_eq_of (p : Char → Bool) (hb : p '!' = false) :
    ∀ (l : List Char) (a : Nat), (∀ i, i < a → p (l.getD i '!') = true) →
      p (l.getD a '!') = false → leadCount p l = a := by
  intro l
  induction l with
  | nil =>
    intro a hlt _
    cases a with
    | zero => rfl
    | succ a' =>
      have := hlt 0 (by omega)
      rw [show ([] : List Char).getD 0 '!' = '!' from rfl] at this
      rw [this] at hb
      cases hb
  | cons c r ih =>
    intro a hlt ha
    cases a with
    | zero =>
      have hc : p c = false := ha
      simp [leadCount, hc]
    | succ a' =>
      have hc : p c = true := hlt 0 (by omega)
      simp only [leadCount, hc, if_true]
      rw [ih a' (fun i hi => hlt (i + 1) (by omega)) ha]

theorem le_leadCount_of (p : Char → Bool) (hb : p '!' = false) :
    ∀ (l : List Char) (k : Nat), (∀ i, i < k → p (l.getD i '!') = true) →
      k ≤ leadCount p l := by
  intro l
  induction l with
  | nil =>
    intro k hlt
    cases k with
    | zero => omega
    | succ k' =>
      have := hlt 0 (by omega)
      rw [show ([] : List Char).getD 0 '!' = '!' from rfl] at this
      rw [this] at hb
      cases hb
  | cons c r ih =>
    intro k hlt
    cases k with
    | zero => omega
    | succ k' =>
      have hc : p c = true := hlt 0 (by omega)
      simp only [leadCount, hc, if_true]
      have := ih k' (fun i hi => hlt (i + 1) (by omega))
      omega

/-! ## dropWhile and strip -/

theorem dw_eq_self (p : Char → Bool) (l : List Char)
    (h : ∀ c, l.head? = some c → p c = false) : l.dropWhile p = l := by
  cases l with
  | nil => rfl
  | cons c r =>
    rw [List.dropWhile_cons, if_neg]
    simp [h c rfl]

theorem dw_head (p : Char → Bool) :
    ∀ (l : List Char) (c : Char), (l.dropWhile p).head? = some c → p c = false := by
  intro l
  induction l with
  | nil =>
    intro c h
    cases h
  | cons d r ih =>
    intro c h
    rw [List.dropWhile_cons] at h
    split at h
    · exact ih c h
    next hd =>
      simp only [List.head?_cons, Option.some.injEq] at h
      rw [← h]
      simpa using hd

theorem getLast?_of_sfx {l₁ l₂ : List Char} (h : l₁ <:+ l₂) (hne : l₁ ≠ []) :
    l₂.getLast? = l₁.getLast? := by
  obtain ⟨pre, rfl⟩ := h
  exact List.getLast?_append_of_ne_nil pre hne

theorem stripWS_head {Y : List Char} {c : Char} (h : (stripWS Y).head? = some c) :
    isSpaceC c = false := by
  unfold stripWS at h
  rw [List.head?_reverse] at h
  have hne : ((Y.dropWhile (fun c => isSpaceC c)).reverse.dropWhile (fun c => isSpaceC c)) ≠ [] := by
    intro hc
    rw [hc] at h
    cases h
  have hsf : (Y.dropWhile (fun c => isSpaceC c)).reverse.dropWhile (fun c => isSpaceC c) <:+
      (Y.dropWhile (fun c => isSpaceC c)).reverse := List.dropWhile_suffix _
  rw [← getLast?_of_sfx hsf hne] at h
  rw [show ((Y.dropWhile (fun c => isSpaceC c)).reverse).getLast? =
      ((Y.dropWhile (fun c => isSpaceC c)).reverse).reverse.head? from
    (List.head?_reverse _).symm, List.reverse_reverse] at h
  exact dw_head _ Y c h

theorem stripWS_last {Y : List Char} {c : Char} (h : (stripWS Y).getLast? = some c) :
    isSpaceC c = false := by
  unfold stripWS at h
  rw [show ((Y.dropWhile (fun c => isSpaceC c)).reverse.dropWhile
        (fun c => isSpaceC c)).reverse.getLast? =
      ((Y.dropWhile (fun c => isSpaceC c)).reverse.dropWhile
        (fun c => isSpaceC c)).reverse.reverse.head? from (List.head?_reverse _).symm,
    List.reverse_reverse] at h
  exact dw_head _ _ c h

theorem stripWS_eq_self {Y : List Char}
    (h1 : ∀ c, Y.head? = some c → isSpaceC c = false)
    (h2 : ∀ c, Y.getLast? = some c → isSpaceC c = false) : stripWS Y = Y := by
  unfold stripWS
  rw [dw_eq_self _ _ h1]
  rw [dw_eq_self _ _ (fun c hc => h2 c ((List.head?_reverse Y) ▸ hc))]
  exact List.reverse_reverse Y

theorem stripWS_idem (Y : List Char) : stripWS (stripWS Y) = stripWS Y := by
  apply stripWS_eq_self
  · intro c hc
    exact stripWS_head hc
  · intro c hc
    exact stripWS_last hc

theorem stripWS_infx (Y : List Char) : stripWS Y <:+: Y := by
  unfold stripWS
  have h1 : Y.dropWhile (fun c => isSpaceC c) <:+ Y := List.dropWhile_suffix _
  have h2 : (Y.dropWhile (fun c => isSpaceC c)).reverse.dropWhile (fun c => isSpaceC c) <:+
      (Y.dropWhile (fun c => isSpaceC c)).reverse := List.dropWhile_suffix _
  have h3 : ((Y.dropWhile (fun c => isSpaceC c)).reverse.dropWhile
      (fun c => isSpaceC c)).reverse <+: Y.dropWhile (fun c => isSpaceC c) := by
    have h4 := List.reverse_prefix.mpr h2
    rwa [List.reverse_reverse] at h4
  exact (pref_infx h3).trans (suff_infx h1)

/-! ## splitWS token structure -/

theorem splitWSAux_infx : ∀ (s acc t : List Char),
    t ∈ splitWSAux s acc → t <:+: (acc.reverse ++ s) := by
  intro s
  induction s with
  | nil =>
    intro acc t ht
    simp only [splitWSAux] at ht
    split at ht
    · cases ht
    · have : t = acc.reverse := by simpa using ht
      rw [this, List.append_nil]
  | cons c r ih =>
    intro acc t ht
    simp only [splitWSAux] at ht
    by_cases hsp : isSpaceC c = true
    · rw [if_pos hsp] at ht
      have hsub : t ∈ splitWSAux r [] → t <:+: acc.reverse ++ c :: r := by
        intro ht2
        have h1 := ih [] t ht2
        rw [List.reverse_nil, List.nil_append] at h1
        exact h1.trans (suff_infx ⟨acc.reverse ++ [c], by simp⟩)
      split at ht
      · exact hsub ht
      · rcases List.mem_cons.mp ht with rfl | ht2
        · exact pref_infx ⟨c :: r, rfl⟩
        · exact hsub ht2
    · rw [if_neg hsp] at ht
      have h1 := ih (c :: acc) t ht
      rw [List.reverse_cons, List.append_assoc] at h1
      exact h1

theorem splitWSAux_sf : ∀ (s acc : List Char), (∀ c ∈ acc, isSpaceC c = false) →
    ∀ t ∈ splitWSAux s acc, t ≠ [] ∧ ∀ c ∈ t, isSpaceC c = false := by
  intro s
  induction s with
  | nil =>
    intro acc hacc t ht
    simp only [splitWSAux] at ht
    split at ht
    · cases ht
    next hae =>
      have hta : t = acc.reverse := by simpa using ht
      subst hta
      refine ⟨?_, ?_⟩
      · intro hc
        rw [List.reverse_eq_nil_iff] at hc
        rw [hc] at hae
        exact hae rfl
      · intro c hc
        exact hacc c (List.mem_reverse.mp hc)
  | cons d r ih =>
    intro acc hacc t ht
    simp only [splitWSAux] at ht
    by_cases hsp : isSpaceC d = true
    · rw [if_pos hsp] at ht
      split at ht
      · exact ih [] (by intro c hc; cases hc) t ht
      next hae =>
        rcases List.mem_cons.mp ht with rfl | ht2
        · refine ⟨?_, ?_⟩
          · intro hc
            rw [List.reverse_eq_nil_iff] at hc
            rw [hc] at hae
            exact hae rfl
          · intro c hc
            exact hacc c (List.mem_reverse.mp hc)
        · exact ih [] (by intro c hc; cases hc) t ht2
    · rw [if_neg hsp] at ht
      refine ih (d :: acc) ?_ t ht
      intro c hc
      rcases List.mem_cons.mp hc with rfl | hc2
      · cases hb : isSpaceC c
        · rfl
        · exact absurd hb hsp
      · exact hacc c hc2

/-! ## joinTok structure -/

theorem joinTok_chars : ∀ (ts : List (List Char)) (c : Char),
    c ∈ joinTok ts → c = ' ' ∨ ∃ t ∈ ts, c ∈ t := by
  intro ts
  induction ts with
  | nil =>
    intro c hc
    cases hc
  | cons t ts' ih =>
    cases ts' with
    | nil =>
      intro c hc
      exact Or.inr ⟨t, by simp, hc⟩
    | cons t' ts'' =>
      intro c hc
      rw [show joinTok (t :: t' :: ts'') = t ++ ' ' :: joinTok (t' :: ts'') from rfl] at hc
      rcases List.mem_append.mp hc with h | h
      · exact Or.inr ⟨t, List.mem_cons_self t _, h⟩
      · rcases List.mem_cons.mp h with rfl | h2
        · exact Or.inl rfl
        · rcases ih c h2 with h3 | ⟨u, hu, hcu⟩
          · exact Or.inl h3
          · exact Or.inr ⟨u, List.mem_cons_of_mem t hu, hcu⟩

theorem joinTok_ne : ∀ (ts : List (List Char)), ts ≠ [] → (∀ t ∈ ts, t ≠ []) →
    joinTok ts ≠ [] := by
  intro ts hne hts
  cases ts with
  | nil => exact absurd rfl hne
  | cons t ts' =>
    cases ts' with
    | nil => exact hts t (by simp)
    | cons t' ts'' =>
      rw [show joinTok (t :: t' :: ts'') = t ++ ' ' :: joinTok (t' :: ts'') from rfl]
      simp

theorem joinTok_hd (t : List Char) (ts : List (List Char)) (ht : t ≠ []) :
    (joinTok (t :: ts)).head? = t.head? := by
  cases ts with
  | nil => rfl
  | cons t' ts' =>
    cases t with
    | nil => exact absurd rfl ht
    | cons c u => rfl

theorem joinTok_lst : ∀ (ts : List (List Char)), (∀ t ∈ ts, t ≠ []) →
    ∀ c, (joinTok ts).getLast? = some c → ∃ t ∈ ts, t.getLast? = some c := by
  intro ts
  induction ts with
  | nil =>
    intro _ c hc
    cases hc
  | cons t ts' ih =>
    cases ts' with
    | nil =>
      intro h c hc
      exact ⟨t, by simp, hc⟩
    | cons t' ts'' =>
      intro h c hc
      have hJ : joinTok (t' :: ts'') ≠ [] :=
        joinTok_ne _ (by simp) (fun u hu => h u (List.mem_cons_of_mem t hu))
      rw [show joinTok (t :: t' :: ts'') = t ++ ' ' :: joinTok (t' :: ts'') from rfl,
        List.getLast?_append_of_ne_nil t (by simp),
        show (' ' :: joinTok (t' :: ts'')) = [' '] ++ joinTok (t' :: ts'') from rfl,
        List.getLast?_append_of_ne_nil _ hJ] at hc
      obtain ⟨u, hu, huc⟩ := ih (fun u hu => h u (List.mem_cons_of_mem t hu)) c hc
      exact ⟨u, List.mem_cons_of_mem t hu, huc⟩

/-! ## Space-free infixes of a join live inside one token -/

theorem sf_pref : ∀ (W A B : List Char) (x : Char), x ∉ W → W <+: A ++ x :: B → W <+: A := by
  intro W
  induction W with
  | nil =>
    intro A B x _ _
    exact List.nil_prefix
  | cons c W' ih =>
    intro A B x hx h
    cases A with
    | nil =>
      obtain ⟨h1, _⟩ := pref_cons h
      subst h1
      exact absurd (List.mem_cons_self c W') hx
    | cons a A' =>
      obtain ⟨h1, h2⟩ := pref_cons h
      rw [List.cons_prefix_cons]
      exact ⟨h1, ih A' B x (fun hc => hx (List.mem_cons_of_mem c hc)) h2⟩

theorem sf_split : ∀ (A B W : List Char) (x : Char),
    x ∉ W → W <:+: A ++ x :: B → W <:+: A ∨ W <:+: B := by
  intro A
  induction A with
  | nil =>
    intro B W x hx h
    rcases List.infix_cons_iff.mp h with hp | hi
    · cases W with
      | nil => exact Or.inl ⟨[], [], rfl⟩
      | cons c W' =>
        obtain ⟨h1, _⟩ := pref_cons hp
        subst h1
        exact absurd (List.mem_cons_self c W') hx
    · exact Or.inr hi
  | cons a A' ih =>
    intro B W x hx h
    rcases List.infix_cons_iff.mp h with hp | hi
    · exact Or.inl (pref_infx (sf_pref W (a :: A') B x hx hp))
    · rcases ih B W x hx hi with h1 | h1
      · exact Or.inl (h1.trans (suff_infx ⟨[a], rfl⟩))
      · exact Or.inr h1

theorem joinTok_sf_infx : ∀ (ts : List (List Char)) (W : List Char), W ≠ [] → ' ' ∉ W →
    W <:+: joinTok ts → ∃ t ∈ ts, W <:+: t := by
  intro ts
  induction ts with
  | nil =>
    intro W hne _ h
    exact absurd (List.infix_nil.mp h) hne
  | cons t ts' ih =>
    cases ts' with
    | nil =>
      intro W _ _ h
      exact ⟨t, by simp, h⟩
    | cons t' ts'' =>
      intro W hne hsp h
      rw [show joinTok (t :: t' :: ts'') = t ++ ' ' :: joinTok (t' :: ts'') from rfl] at h
      rcases sf_split t (joinTok (t' :: ts'')) W ' ' hsp h with h1 | h1
      · exact ⟨t, List.mem_cons_self t _, h1⟩
      · obtain ⟨u, hu, h2⟩ := ih W hne hsp h1
        exact ⟨u, List.mem_cons_of_mem t hu, h2⟩

theorem infx_drop {W l : List Char} (h : W <:+: l) : ∃ i, W <+: l.drop i := by
  obtain ⟨pre, suf, he⟩ := h
  refine ⟨pre.length, suf, ?_⟩
  rw [← he, List.append_assoc, List.drop_left]

/-! ## Round trip: splitting a join of space-free tokens -/

theorem splitWSAux_tok : ∀ (t rest acc : List Char), (∀ c ∈ t, isSpaceC c = false) →
    splitWSAux (t ++ rest) acc = splitWSAux rest (t.reverse ++ acc) := by
  intro t
  induction t with
  | nil =>
    intro rest acc _
    simp
  | cons c t' ih =>
    intro rest acc h
    have hc : isSpaceC c = false := h c (List.mem_cons_self c t')
    show splitWSAux (c :: (t' ++ rest)) acc = _
    simp only [splitWSAux]
    rw [if_neg (by simp [hc])]
    rw [ih rest (c :: acc) (fun x hx => h x (List.mem_cons_of_mem c hx))]
    congr 1
    simp

theorem splitWS_joinTok : ∀ (ts : List (List Char)),
    (∀ t ∈ ts, t ≠ [] ∧ ∀ c ∈ t, isSpaceC c = false) → splitWS (joinTok ts) = ts := by
  intro ts
  induction ts with
  | nil => intro _; rfl
  | cons t ts' ih =>
    intro h
    obtain ⟨htne, htsf⟩ := h t (List.mem_cons_self t ts')
    cases ts' with
    | nil =>
      show splitWSAux (joinTok [t]) [] = [t]
      rw [show joinTok [t] = t from rfl]
      have h2 := splitWSAux_tok t [] [] htsf
      rw [List.append_nil, List.append_nil] at h2
      rw [h2]
      simp only [splitWSAux]
      rw [if_neg (by simp [htne])]
      rw [List.reverse_reverse]
    | cons t' ts'' =>
      show splitWSAux (joinTok (t :: t' :: ts'')) [] = t :: t' :: ts''
      rw [show joinTok (t :: t' :: ts'') = t ++ ' ' :: joinTok (t' :: ts'') from rfl]
      rw [splitWSAux_tok t _ [] htsf]
      rw [List.append_nil]
      simp only [splitWSAux]
      rw [if_pos (by decide)]
      rw [if_neg (by simp [htne])]
      rw [List.reverse_reverse]
      congr 1
      exact ih (fun u hu => h u (List.mem_cons_of_mem t hu))

theorem filter_self_filter (p : List Char → Bool) (l : List (List Char)) :
    (l.filter p).filter p = l.filter p := by
  rw [List.filter_filter]
  congr 1
  funext a
  rw [Bool.and_self]

/-! ## Character-class facts -/

theorem dsepC_cases {c : Char} (h : isDateSepC c = true) : c = '.' ∨ c = '-' ∨ c = '/' := by
  simp only [isDateSepC, Bool.or_eq_true, decide_eq_true_eq] at h
  tauto

theorem spaceC_cases {c : Char} (h : isSpaceC c = true) :
    c = ' ' ∨ c = '\t' ∨ c = '\n' ∨ c = '\r' ∨ c = '\x0b' ∨ c = '\x0c' := by
  simp only [isSpaceC, Bool.or_eq_true, decide_eq_true_eq] at h
  tauto

theorem sepC_cases {c : Char} (h : isSepC c = true) :
    c = '_' ∨ c = '-' ∨ c = '.' ∨ c = '(' ∨ c = ')' ∨ c = '[' ∨ c = ']' ∨
      c = ',' ∨ c = ';' ∨ c = ':' := by
  simp only [isSepC, Bool.or_eq_true, decide_eq_true_eq] at h
  tauto

theorem dsep_not_digit {c : Char} (h : isDateSepC c = true) : isDigitC c = false := by
  rcases dsepC_cases h with rfl | rfl | rfl <;> decide

theorem dsep_not_space {c : Char} (h : isDateSepC c = true) : isSpaceC c = false := by
  rcases dsepC_cases h with rfl | rfl | rfl <;> decide

theorem digit_not_space {c : Char} (h : isDigitC c = true) : isSpaceC c = false := by
  cases hb : isSpaceC c
  · rfl
  · rcases spaceC_cases hb with rfl | rfl | rfl | rfl | rfl | rfl <;> cases h

theorem sep_not_space {c : Char} (h : isSepC c = true) : isSpaceC c = false := by
  rcases sepC_cases h with rfl | rfl | rfl | rfl | rfl | rfl | rfl | rfl | rfl | rfl <;> decide

theorem dsep_getD (l : List Char) (i : Nat) :
    isDateSepC (l.getD i ' ') = isDateSepC (l.getD i '!') := by
  by_cases h : i < l.length
  · rw [List.getD_eq_getElem l _ h, List.getD_eq_getElem l _ h]
  · rw [List.getD_eq_default _ _ (by omega), List.getD_eq_default _ _ (by omega)]
    decide

/-! ## The separator-run matcher -/

theorem m_seps_hsp (r : List Char) : m_seps (' ' :: r) = none := by
  simp only [m_seps]
  rw [show leadCount isSepC (' ' :: r) = 0 from by
    simp only [leadCount]
    rw [if_neg (by decide)]]
  rfl

theorem m_seps_hpos (s : List Char) (n : Nat) (h : m_seps s = some n) : 1 ≤ n := by
  simp only [m_seps] at h
  split at h
  · next h1 =>
    cases h
    exact h1
  · cases h

theorem m_seps_hGood (c : Char) (O rest : List Char)
    (_ : ∀ u, u <+: O → ' ' ∉ u → u <+: rest) (h : m_seps (c :: O) ≠ none) :
    m_seps (c :: rest) ≠ none := by
  have hc : isSepC c = true := by
    by_contra hb
    apply h
    simp only [m_seps]
    rw [show leadCount isSepC (c :: O) = 0 from by
      simp only [leadCount]
      rw [if_neg hb]]
    rfl
  simp only [m_seps]
  rw [show leadCount isSepC (c :: rest) = leadCount isSepC rest + 1 from by
    simp only [leadCount]
    rw [if_pos hc]]
  simp

theorem m_seps_of_sep {c : Char} (l : List Char) (hc : isSepC c = true) :
    m_seps (c :: l) ≠ none := by
  simp only [m_seps]
  rw [show leadCount isSepC (c :: l) = leadCount isSepC l + 1 from by
    simp only [leadCount]
    rw [if_pos hc]]
  simp

theorem m_seps_none_of {c : Char} (l : List Char) (hc : isSepC c = false) :
    m_seps (c :: l) = none := by
  simp only [m_seps]
  rw [show leadCount isSepC (c :: l) = 0 from by
    simp only [leadCount]
    rw [if_neg (by simp [hc])]]
  rfl

/-! ## The bare-year matcher -/

theorem m_year4_hsp (r : List Char) : m_year4 (' ' :: r) = none := by
  unfold m_year4
  rw [show leadCount isDigitC (' ' :: r) = 0 from by
    simp only [leadCount]
    rw [if_neg (by decide)]]
  rfl

theorem m_year4_hpos (s : List Char) (n : Nat) (h : m_year4 s = some n) : 1 ≤ n := by
  unfold m_year4 at h
  split at h
  · cases h
    omega
  · cases h

theorem m_year4_of_le {l : List Char} (h : 4 ≤ leadCount isDigitC l) :
    m_year4 l = some 4 := by
  unfold m_year4
  rw [if_pos h]

theorem m_year4_digits {l : List Char} (h : m_year4 l ≠ none) :
    4 ≤ leadCount isDigitC l := by
  by_contra hb
  apply h
  unfold m_year4
  rw [if_neg hb]

theorem m_year4_hGood (c : Char) (O rest : List Char)
    (htr : ∀ u, u <+: O → ' ' ∉ u → u <+: rest) (h : m_year4 (c :: O) ≠ none) :
    m_year4 (c :: rest) ≠ none := by
  have h4 := m_year4_digits h
  have hc : isDigitC c = true := by
    by_contra hb
    rw [show leadCount isDigitC (c :: O) = 0 from by
      simp only [leadCount]
      rw [if_neg hb]] at h4
    omega
  have h3 : 3 ≤ leadCount isDigitC O := by
    rw [show leadCount isDigitC (c :: O) = leadCount isDigitC O + 1 from by
      simp only [leadCount]
      rw [if_pos hc]] at h4
    omega
  have htk := take_leadCount_all isDigitC O 3 h3
  have hsf : ' ' ∉ O.take 3 := by
    intro hm
    have := digit_not_space (htk.2 ' ' hm)
    exact absurd this (by decide)
  have hpt : O.take 3 <+: rest := htr (O.take 3) ( List.take_prefix 3 O) hsf
  have hle : 4 ≤ leadCount isDigitC (c :: rest) := by
    have h5 : 3 ≤ leadCount isDigitC rest := by
      have h6 := le_leadCount_of_pref hpt htk.2
      rwa [htk.1] at h6
    rw [show leadCount isDigitC (c :: rest) = leadCount isDigitC rest + 1 from by
      simp only [leadCount]
      rw [if_pos hc]]
    omega
  rw [m_year4_of_le hle]
  simp

/-! ## The delimited-date matcher: match windows -/

theorem d3_pack {s : List Char} {a b n : Nat}
    (hA : a ≤ leadCount isDigitC s)
    (hsepA : isDateSepC (s.getD a ' ') = true)
    (hB : b ≤ leadCount isDigitC (s.drop (a + 1)))
    (hsepB : isDateSepC (s.getD (a + 1 + b) ' ') = true)
    (hc2 : 2 ≤ min 4 (leadCount isDigitC (s.drop (a + 1 + b + 1))))
    (hn : n = a + 1 + b + 1 + min 4 (leadCount isDigitC (s.drop (a + 1 + b + 1)))) :
    (∀ i, i < a → isDigitC (s.getD i '!') = true) ∧
    isDateSepC (s.getD a '!') = true ∧
    (∀ i, i < b → isDigitC (s.getD (a + 1 + i) '!') = true) ∧
    isDateSepC (s.getD (a + 1 + b) '!') = true ∧
    (∀ i, a + b + 2 ≤ i → i < n → isDigitC (s.getD i '!') = true) ∧
    a + b + 4 ≤ n ∧ n ≤ s.length := by
  rw [dsep_getD] at hsepA hsepB
  have hL : leadCount isDigitC (s.drop (a + 1 + b + 1)) ≤ (s.drop (a + 1 + b + 1)).length :=
    leadCount_le_length _ _
  have hld : (s.drop (a + 1 + b + 1)).length = s.length - (a + 1 + b + 1) :=
    List.length_drop _ _
  refine ⟨?_, hsepA, ?_, hsepB, ?_, by omega, by omega⟩
  · intro i hi
    exact getD_lt_leadCount (by omega)
  · intro i hi
    have h1 : isDigitC ((s.drop (a + 1)).getD i '!') = true := getD_lt_leadCount (by omega)
    rwa [getD_drop] at h1
  · intro i hi1 hi2
    have h1 : isDigitC ((s.drop (a + 1 + b + 1)).getD (i - (a + 1 + b + 1)) '!') = true :=
      getD_lt_leadCount (by omega)
    rw [getD_drop, show a + 1 + b + 1 + (i - (a + 1 + b + 1)) = i from by omega] at h1
    exact h1

theorem d3_extract {s : List Char} {n : Nat} (h : m_date3 s = some n) :
    ∃ a b, (a = 1 ∨ a = 2) ∧ (b = 1 ∨ b = 2) ∧
      (∀ i, i < a → isDigitC (s.getD i '!') = true) ∧
      isDateSepC (s.getD a '!') = true ∧
      (∀ i, i < b → isDigitC (s.getD (a + 1 + i) '!') = true) ∧
      isDateSepC (s.getD (a + 1 + b) '!') = true ∧
      (∀ i, a + b + 2 ≤ i → i < n → isDigitC (s.getD i '!') = true) ∧
      a + b + 4 ≤ n ∧ n ≤ s.length := by
  simp only [m_date3] at h
  split at h
  next m heqA =>
    injection h with h
    subst h
    split at heqA
    next hA =>
      split at heqA
      next hsA =>
        split at heqA
        next m2 heqC =>
          injection heqA with heqA
          subst heqA
          split at heqC
          next hB =>
            split at heqC
            next hsB =>
              split at heqC
              next hm =>
                injection heqC with heqC
                exact ⟨2, 2, Or.inr rfl, Or.inr rfl, d3_pack hA hsA hB hsB hm heqC.symm⟩
              next => cases heqC
            next => cases heqC
          next => cases heqC
        next heqC2 =>
          split at heqA
          next hB =>
            split at heqA
            next hsB =>
              split at heqA
              next hm =>
                injection heqA with heqA
                exact ⟨2, 1, Or.inr rfl, Or.inl rfl, d3_pack hA hsA hB hsB hm heqA.symm⟩
              next => cases heqA
            next => cases heqA
          next => cases heqA
      next => cases heqA
    next => cases heqA
  next heqA =>
    split at h
    next hA =>
      split at h
      next hsA =>
        split at h
        next m2 heqC =>
          injection h with h
          subst h
          split at heqC
          next hB =>
            split at heqC
            next hsB =>
              split at heqC
              next hm =>
                injection heqC with heqC
                exact ⟨1, 2, Or.inl rfl, Or.inr rfl, d3_pack hA hsA hB hsB hm heqC.symm⟩
              next => cases heqC
            next => cases heqC
          next => cases heqC
        next heqC2 =>
          split at h
          next hB =>
            split at h
            next hsB =>
              split at h
              next hm =>
                injection h with h
                exact ⟨1, 1, Or.inl rfl, Or.inl rfl, d3_pack hA hsA hB hsB hm h.symm⟩
              next => cases h
            next => cases h
          next => cases h
      next => cases h
    next => cases h

theorem d3_apply {r : List Char} {a b n : Nat}
    (ha : a = 1 ∨ a = 2) (hb : b = 1 ∨ b = 2)
    (hd1 : ∀ i, i < a → isDigitC (r.getD i '!') = true)
    (hs1 : isDateSepC (r.getD a '!') = true)
    (hd2 : ∀ i, i < b → isDigitC (r.getD (a + 1 + i) '!') = true)
    (hs2 : isDateSepC (r.getD (a + 1 + b) '!') = true)
    (hd3 : ∀ i, a + b + 2 ≤ i → i < n → isDigitC (r.getD i '!') = true)
    (hn4 : a + b + 4 ≤ n) :
    m_date3 r ≠ none := by
  have hrun1 : leadCount isDigitC r = a :=
    leadCount_eq_of _ (by decide) r a hd1 (dsep_not_digit hs1)
  have hrun2 : leadCount isDigitC (r.drop (a + 1)) = b := by
    apply leadCount_eq_of _ (by decide)
    · intro i hi
      rw [getD_drop]
      exact hd2 i hi
    · rw [getD_drop]
      exact dsep_not_digit hs2
  have hc : 2 ≤ min 4 (leadCount isDigitC (r.drop (a + 1 + b + 1))) := by
    have h2 : 2 ≤ leadCount isDigitC (r.drop (a + 1 + b + 1)) := by
      apply le_leadCount_of _ (by decide)
      intro i hi
      rw [getD_drop]
      exact hd3 (a + 1 + b + 1 + i) (by omega) (by omega)
    omega
  have hs1g : isDateSepC (r.getD a ' ') = true := by
    rw [dsep_getD]
    exact hs1
  have hs2g : isDateSepC (r.getD (a + 1 + b) ' ') = true := by
    rw [dsep_getD]
    exact hs2
  rcases ha with rfl | rfl <;> rcases hb with rfl | rfl <;>
    simp only [m_date3] <;>
    rw [hrun1] <;>
    simp only [hrun2, hs1g, hs2g, if_true] <;>
    simp [hc]

theorem d3_window {s : List Char} {n : Nat} (h : m_date3 s = some n) :
    ∃ W, W <+: s ∧ W ≠ [] ∧ (∀ c ∈ W, isSpaceC c = false) ∧
      ∀ r, W <+: r → m_date3 r ≠ none := by
  obtain ⟨a, b, ha, hb, hd1, hs1, hd2, hs2, hd3, hn4, hns⟩ := d3_extract h
  have hlen : (s.take n).length = n := by
    rw [List.length_take]
    omega
  have hgds : ∀ i, i < n → (s.take n).getD i '!' = s.getD i '!' := by
    intro i hi
    exact (getD_of_pref ( List.take_prefix n s) i (by omega)).symm
  refine ⟨s.take n, List.take_prefix n s, ?_, ?_, ?_⟩
  · intro hc
    rw [hc] at hlen
    simp at hlen
    omega
  · intro c hc
    obtain ⟨i, hi, hgi⟩ := List.mem_iff_getElem.mp hc
    have hin : i < n := by omega
    have hgd : s.getD i '!' = c := by
      rw [← hgds i hin, List.getD_eq_getElem _ '!' hi]
      exact hgi
    have hdig : isDigitC c = true ∨ isDateSepC c = true := by
      by_cases h1 : i < a
      · exact Or.inl (hgd ▸ hd1 i h1)
      by_cases h2 : i = a
      · subst h2
        exact Or.inr (hgd ▸ hs1)
      by_cases h3 : i < a + 1 + b
      · have h4 : i - (a + 1) < b := by omega
        have h5 := hd2 (i - (a + 1)) h4
        rw [show a + 1 + (i - (a + 1)) = i from by omega] at h5
        exact Or.inl (hgd ▸ h5)
      by_cases h6 : i = a + 1 + b
      · subst h6
        exact Or.inr (hgd ▸ hs2)
      · exact Or.inl (hgd ▸ hd3 i (by omega) hin)
    rcases hdig with h7 | h7
    · exact digit_not_space h7
    · exact dsep_not_space h7
  · intro r hr
    have hgdr : ∀ i, i < n → r.getD i '!' = s.getD i '!' := by
      intro i hi
      rw [getD_of_pref hr i (by omega), hgds i hi]
    refine d3_apply ha hb ?_ ?_ ?_ ?_ ?_ hn4
    · intro i hi
      rw [hgdr i (by omega)]
      exact hd1 i hi
    · rw [hgdr a (by omega)]
      exact hs1
    · intro i hi
      rw [hgdr (a + 1 + i) (by omega)]
      exact hd2 i hi
    · rw [hgdr (a + 1 + b) (by omega)]
      exact hs2
    · intro i hi1 hi2
      rw [hgdr i (by omega)]
      exact hd3 i hi1 hi2

theorem d3_hsp (r : List Char) : m_date3 (' ' :: r) = none := by
  simp only [m_date3]
  rw [show leadCount isDigitC (' ' :: r) = 0 from by
    simp only [leadCount]
    rw [if_neg (by decide)]]
  simp

theorem d3_hpos (s : List Char) (n : Nat) (h : m_date3 s = some n) : 1 ≤ n := by
  obtain ⟨a, b, _, _, _, _, _, _, _, hn4, _⟩ := d3_extract h
  omega

theorem d3_hGood (c : Char) (O rest : List Char)
    (htr : ∀ u, u <+: O → ' ' ∉ u → u <+: rest)
    (h : m_date3 (c :: O) ≠ none) : m_date3 (c :: rest) ≠ none := by
  rcases hm : m_date3 (c :: O) with _ | n
  · exact absurd hm h
  obtain ⟨W, hWp, hWne, hWsf, hWap⟩ := d3_window hm
  cases W with
  | nil => exact absurd rfl hWne
  | cons w W' =>
    obtain ⟨h1, h2⟩ := pref_cons hWp
    have hW'sf : ' ' ∉ W' := by
      intro hc
      exact absurd (hWsf ' ' (List.mem_cons_of_mem w hc)) (by decide)
    have h3 : W' <+: rest := htr W' h2 hW'sf
    apply hWap (c :: rest)
    rw [List.cons_prefix_cons]
    exact ⟨h1, h3⟩

/-! ## Success of the remaining date matchers forces a four-digit run -/

theorem firstSome_some {f : Nat → Option Nat} :
    ∀ {l : List Nat} {n : Nat}, firstSome f l = some n → ∃ x ∈ l, f x = some n := by
  intro l
  induction l with
  | nil =>
    intro n h
    cases h
  | cons x xs ih =>
    intro n h
    simp only [firstSome] at h
    split at h
    next m heq =>
      injection h with h
      subst h
      exact ⟨x, List.mem_cons_self x xs, heq⟩
    next heq =>
      obtain ⟨y, hy, hfy⟩ := ih h
      exact ⟨y, List.mem_cons_of_mem x hy, hfy⟩

theorem skipWs4_digits {s : List Char} {i n : Nat} (h : skipWsThen4 s i = some n) :
    ∃ j, 4 ≤ leadCount isDigitC (s.drop j) := by
  simp only [skipWsThen4] at h
  split at h
  next hf =>
    refine ⟨i + leadCount isSpaceC (s.drop i), ?_⟩
    simpa [fourDigAt] using hf
  next => cases h

theorem m_date4_digits {s : List Char} {n : Nat} (h : m_date4 s = some n) :
    ∃ j, 4 ≤ leadCount isDigitC (s.drop j) := by
  simp only [m_date4] at h
  split at h
  next hf =>
    refine ⟨0, ?_⟩
    simpa [fourDigAt] using hf
  next => cases h

theorem m_monthFull_digits {s : List Char} {n : Nat} (h : m_monthFull s = some n) :
    ∃ j, 4 ≤ leadCount isDigitC (s.drop j) := by
  simp only [m_monthFull] at h
  split at h
  next i heq => exact skipWs4_digits h
  next => cases h

theorem m_monthAbbr_digits {s : List Char} {n : Nat} (h : m_monthAbbr s = some n) :
    ∃ j, 4 ≤ leadCount isDigitC (s.drop j) := by
  simp only [m_monthAbbr] at h
  split at h
  next i heq =>
    split at h
    · split at h
      next m2 heq2 => exact skipWs4_digits heq2
      next => cases h
    · exact skipWs4_digits h
  next => cases h

theorem m_season_digits {s : List Char} {n : Nat} (h : m_season s = some n) :
    ∃ j, 4 ≤ leadCount isDigitC (s.drop j) := by
  simp only [m_season] at h
  split at h
  next k heq =>
    split at h
    · exact skipWs4_digits h
    · exact skipWs4_digits h
  next => cases h

theorem m_paren_digits {s : List Char} {n : Nat} (h : m_parenYear s = some n) :
    ∃ j, 4 ≤ leadCount isDigitC (s.drop j) := by
  cases s with
  | nil =>
    rw [show m_parenYear [] = none from rfl] at h
    cases h
  | cons c r =>
    rw [m_parenYear.eq_def] at h
    split at h
    next rest heq =>
      obtain ⟨hk, hkm, hks⟩ := firstSome_some h
      obtain ⟨hm, hmm, hms⟩ := firstSome_some hks
      dsimp only at hms
      split at hms
      next hcond =>
        rw [Bool.and_eq_true] at hcond
        refine ⟨1 + hk + hm, ?_⟩
        have h4 := hcond.1
        simpa [fourDigAt] using h4
      next => cases hms
    next => cases h

theorem stripExt_sub {s : List Char} {c : Char} (h : c ∈ stripExt s) : c ∈ s := by
  simp only [stripExt] at h
  split at h
  · exact List.take_subset _ _ h
  · exact h

theorem norm_stage_idem (s2 : List Char) (hlow : ∀ c ∈ s2, lowerChar c = c) :
    normalize_for_fuzzy (String.mk (stripWS (joinTok (List.filter keepTok (splitWS
      (subst m_seps (subst m_year4 (subst m_season (subst m_monthAbbr (subst m_monthFull
        (subst m_date4 (subst m_date3 s2)))))))))))) =
    String.mk (stripWS (joinTok (List.filter keepTok (splitWS
      (subst m_seps (subst m_year4 (subst m_season (subst m_monthAbbr (subst m_monthFull
        (subst m_date4 (subst m_date3 s2))))))))))) := by
  set t3 := subst m_date3 s2 with ht3
  set t4 := subst m_date4 t3 with ht4
  set t5 := subst m_monthFull t4 with ht5
  set t6 := subst m_monthAbbr t5 with ht6
  set t7 := subst m_season t6 with ht7
  set t8 := subst m_year4 t7 with ht8
  set t9 := subst m_seps t8 with ht9
  set ts := List.filter keepTok (splitWS t9) with hts
  set OUT := stripWS (joinTok ts) with hOUTd
  clear_value t3 t4 t5 t6 t7 t8 t9 ts OUT
  have hnm3 : ∀ k, m_date3 (t3.drop k) = none := by
    intro k
    rw [ht3]
    exact substGo_noMatch m_date3 (by decide) d3_hsp d3_hpos d3_hGood _ _ k
  have hnm8 : ∀ k, m_year4 (t8.drop k) = none := by
    intro k
    rw [ht8]
    exact substGo_noMatch m_year4 (by decide) m_year4_hsp m_year4_hpos m_year4_hGood _ _ k
  have hnm9 : ∀ k, m_seps (t9.drop k) = none := by
    intro k
    rw [ht9]
    exact substGo_noMatch m_seps (by decide) m_seps_hsp m_seps_hpos m_seps_hGood _ _ k
  have htok : ∀ t ∈ ts, t ≠ [] ∧ ∀ c ∈ t, isSpaceC c = false := by
    intro t ht
    have ht' : t ∈ List.filter keepTok (splitWS t9) := by
      rw [← hts]
      exact ht
    have ht2 : t ∈ splitWSAux t9 [] := List.mem_of_mem_filter ht'
    exact splitWSAux_sf t9 [] (by intro c hc; cases hc) t ht2
  have hOUT_infx : ∀ W : List Char, W ≠ [] → (∀ c ∈ W, isSpaceC c = false) →
      W <:+: OUT → W <:+: t9 := by
    intro W hne hsf hI
    have hsp : ' ' ∉ W := fun hc => absurd (hsf ' ' hc) (by decide)
    rw [hOUTd] at hI
    have h1 : W <:+: joinTok ts := hI.trans (stripWS_infx (joinTok ts))
    obtain ⟨t, ht, hWt⟩ := joinTok_sf_infx ts W hne hsp h1
    have ht' : t ∈ List.filter keepTok (splitWS t9) := by
      rw [← hts]
      exact ht
    have ht2 : t ∈ splitWSAux t9 [] := List.mem_of_mem_filter ht'
    have h3 := splitWSAux_infx t9 [] t ht2
    rw [List.reverse_nil, List.nil_append] at h3
    exact hWt.trans h3
  have hno4 : ∀ k, ¬ 4 ≤ leadCount isDigitC (OUT.drop k) := by
    intro k hge
    have htk := take_leadCount_all isDigitC (OUT.drop k) 4 hge
    have hWsf : ∀ c ∈ (OUT.drop k).take 4, isSpaceC c = false :=
      fun c hc => digit_not_space (htk.2 c hc)
    have hWne : (OUT.drop k).take 4 ≠ [] := by
      intro hc
      rw [hc] at htk
      simp at htk
    have hWI : (OUT.drop k).take 4 <:+: OUT :=
      (pref_infx ( List.take_prefix 4 (OUT.drop k))).trans (suff_infx (List.drop_suffix k OUT))
    have h9 := hOUT_infx _ hWne hWsf hWI
    have hWsp : ' ' ∉ (OUT.drop k).take 4 := fun hc => absurd (hWsf ' ' hc) (by decide)
    have h8 : (OUT.drop k).take 4 <:+: t8 := by
      rw [ht9] at h9
      exact substGo_infx m_seps _ t8 _ h9 hWsp hWne
    obtain ⟨i, hWp⟩ := infx_drop h8
    have h4 : 4 ≤ leadCount isDigitC (t8.drop i) := by
      have h5 := le_leadCount_of_pref hWp htk.2
      rwa [htk.1] at h5
    have h6 := hnm8 i
    rw [m_year4_of_le h4] at h6
    cases h6
  have hnosep : ∀ c ∈ OUT, isSepC c = false := by
    intro c hc
    cases hcs : isSepC c with
    | false => rfl
    | true =>
      exfalso
      obtain ⟨pre, suf, hps⟩ := List.mem_iff_append.mp hc
      have hWI : [c] <:+: OUT := ⟨pre, suf, by rw [hps]; simp⟩
      have h9 := hOUT_infx [c] (by simp)
        (by
          intro d hd
          rw [List.mem_singleton.mp hd]
          exact sep_not_space hcs) hWI
      obtain ⟨i, hp⟩ := infx_drop h9
      obtain ⟨u, hu⟩ := hp
      have h0 := hnm9 i
      rw [← hu] at h0
      exact m_seps_of_sep u hcs h0
  have hnod3 : ∀ k, m_date3 (OUT.drop k) = none := by
    intro k
    rcases hm : m_date3 (OUT.drop k) with _ | n
    · rfl
    exfalso
    obtain ⟨W, hWp, hWne, hWsf, hWap⟩ := d3_window hm
    have hWI : W <:+: OUT := (pref_infx hWp).trans (suff_infx (List.drop_suffix k OUT))
    have h9 := hOUT_infx W hWne hWsf hWI
    have hWsp : ' ' ∉ W := fun hc => absurd (hWsf ' ' hc) (by decide)
    have h8 : W <:+: t8 := by
      rw [ht9] at h9
      exact substGo_infx m_seps _ t8 W h9 hWsp hWne
    have h7 : W <:+: t7 := by
      rw [ht8] at h8
      exact substGo_infx m_year4 _ t7 W h8 hWsp hWne
    have h6 : W <:+: t6 := by
      rw [ht7] at h7
      exact substGo_infx m_season _ t6 W h7 hWsp hWne
    have h5 : W <:+: t5 := by
      rw [ht6] at h6
      exact substGo_infx m_monthAbbr _ t5 W h6 hWsp hWne
    have h4 : W <:+: t4 := by
      rw [ht5] at h5
      exact substGo_infx m_monthFull _ t4 W h5 hWsp hWne
    have h3 : W <:+: t3 := by
      rw [ht4] at h4
      exact substGo_infx m_date4 _ t3 W h4 hWsp hWne
    obtain ⟨i, hp⟩ := infx_drop h3
    exact hWap (t3.drop i) hp (hnm3 i)
  have hOp : ∀ k, m_parenYear (OUT.drop k) = none := by
    intro k
    rcases hm : m_parenYear (OUT.drop k) with _ | n
    · rfl
    exfalso
    obtain ⟨j, hj⟩ := m_paren_digits hm
    rw [drop_add] at hj
    exact hno4 (k + j) hj
  have hOd4 : ∀ k, m_date4 (OUT.drop k) = none := by
    intro k
    rcases hm : m_date4 (OUT.drop k) with _ | n
    · rfl
    exfalso
    obtain ⟨j, hj⟩ := m_date4_digits hm
    rw [drop_add] at hj
    exact hno4 (k + j) hj
  have hOmf : ∀ k, m_monthFull (OUT.drop k) = none := by
    intro k
    rcases hm : m_monthFull (OUT.drop k) with _ | n
    · rfl
    exfalso
    obtain ⟨j, hj⟩ := m_monthFull_digits hm
    rw [drop_add] at hj
    exact hno4 (k + j) hj
  have hOma : ∀ k, m_monthAbbr (OUT.drop k) = none := by
    intro k
    rcases hm : m_monthAbbr (OUT.drop k) with _ | n
    · rfl
    exfalso
    obtain ⟨j, hj⟩ := m_monthAbbr_digits hm
    rw [drop_add] at hj
    exact hno4 (k + j) hj
  have hOse : ∀ k, m_season (OUT.drop k) = none := by
    intro k
    rcases hm : m_season (OUT.drop k) with _ | n
    · rfl
    exfalso
    obtain ⟨j, hj⟩ := m_season_digits hm
    rw [drop_add] at hj
    exact hno4 (k + j) hj
  have hOy4 : ∀ k, m_year4 (OUT.drop k) = none := by
    intro k
    unfold m_year4
    rw [if_neg (hno4 k)]
  have hOsp : ∀ k, m_seps (OUT.drop k) = none := by
    intro k
    rcases hdk : OUT.drop k with _ | ⟨c, u⟩
    · decide
    · have hcO : c ∈ OUT := List.drop_subset k OUT (by rw [hdk]; exact List.mem_cons_self c u)
      exact m_seps_none_of u (hnosep c hcO)
  have hsub1 : subst m_parenYear OUT = OUT :=
    substGo_id m_parenYear OUT hOp OUT.length (le_refl _)
  have hsub3 : subst m_date3 OUT = OUT :=
    substGo_id m_date3 OUT hnod3 OUT.length (le_refl _)
  have hsub4 : subst m_date4 OUT = OUT :=
    substGo_id m_date4 OUT hOd4 OUT.length (le_refl _)
  have hsub5 : subst m_monthFull OUT = OUT :=
    substGo_id m_monthFull OUT hOmf OUT.length (le_refl _)
  have hsub6 : subst m_monthAbbr OUT = OUT :=
    substGo_id m_monthAbbr OUT hOma OUT.length (le_refl _)
  have hsub7 : subst m_season OUT = OUT :=
    substGo_id m_season OUT hOse OUT.length (le_refl _)
  have hsub8 : subst m_year4 OUT = OUT :=
    substGo_id m_year4 OUT hOy4 OUT.length (le_refl _)
  have hsub9 : subst m_seps OUT = OUT :=
    substGo_id m_seps OUT hOsp OUT.length (le_refl _)
  have hlowOUT : ∀ c ∈ OUT, lowerChar c = c := by
    intro c hc
    rw [hOUTd] at hc
    have hc1 : c ∈ joinTok ts := (stripWS_infx (joinTok ts)).subset hc
    rcases joinTok_chars ts c hc1 with rfl | ⟨t, ht, hct⟩
    · decide
    have ht' : t ∈ List.filter keepTok (splitWS t9) := by
      rw [← hts]
      exact ht
    have ht2 : t ∈ splitWSAux t9 [] := List.mem_of_mem_filter ht'
    have hct9 : c ∈ t9 := by
      have h3 := splitWSAux_infx t9 [] t ht2
      rw [List.reverse_nil, List.nil_append] at h3
      exact h3.subset hct
    rw [ht9] at hct9
    rcases substGo_chars m_seps _ t8 c hct9 with rfl | h8
    · decide
    rw [ht8] at h8
    rcases substGo_chars m_year4 _ t7 c h8 with rfl | h7
    · decide
    rw [ht7] at h7
    rcases substGo_chars m_season _ t6 c h7 with rfl | h6
    · decide
    rw [ht6] at h6
    rcases substGo_chars m_monthAbbr _ t5 c h6 with rfl | h5
    · decide
    rw [ht5] at h5
    rcases substGo_chars m_monthFull _ t4 c h5 with rfl | h4
    · decide
    rw [ht4] at h4
    rcases substGo_chars m_date4 _ t3 c h4 with rfl | h3
    · decide
    rw [ht3] at h3
    rcases substGo_chars m_date3 _ s2 c h3 with rfl | h2
    · decide
    exact hlow c h2
  have hmap : OUT.map lowerChar = OUT := by
    have h1 : OUT.map lowerChar = OUT.map id := List.map_congr_left hlowOUT
    rw [h1, List.map_id]
  have hstrip1 : stripWS OUT = OUT := by
    rw [hOUTd]
    exact stripWS_idem (joinTok ts)
  have hext : stripExt OUT = OUT := by
    simp only [stripExt]
    rw [if_neg]
    rintro ⟨h2, h5, hd⟩
    by_cases hk : leadCount isLowerC OUT.reverse < OUT.reverse.length
    · have hmem : '.' ∈ OUT.reverse := by
        rw [← hd]
        exact getD_mem_of_lt hk
      rw [List.mem_reverse] at hmem
      exact absurd (hnosep '.' hmem) (by decide)
    · rw [List.getD_eq_default _ _ (by omega)] at hd
      exact absurd hd (by decide)
  have hsplit : splitWS OUT = ts := by
    by_cases hts0 : ts = []
    · rw [hOUTd, hts0]
      rfl
    · have hstr : stripWS (joinTok ts) = joinTok ts := by
        apply stripWS_eq_self
        · intro c hc
          cases hcase : ts with
          | nil => exact absurd hcase hts0
          | cons t ts' =>
            rw [hcase] at hc
            rw [joinTok_hd t ts' (htok t (by rw [hcase]; exact List.mem_cons_self t ts')).1] at hc
            exact (htok t (by rw [hcase]; exact List.mem_cons_self t ts')).2 c (mem_of_hd hc)
        · intro c hc
          obtain ⟨t, ht, htc⟩ := joinTok_lst ts (fun t ht => (htok t ht).1) c hc
          exact (htok t ht).2 c (List.mem_of_mem_getLast? htc)
      rw [hOUTd, hstr]
      exact splitWS_joinTok ts htok
  have hfil : List.filter keepTok ts = ts := by
    rw [hts]
    exact filter_self_filter keepTok (splitWS t9)
  by_cases hOe : String.mk OUT = ""
  · rw [hOe]
    simp [normalize_for_fuzzy]
  · simp only [normalize_for_fuzzy, if_neg hOe]
    rw [show (String.mk OUT).toList = OUT from rfl, hmap, hstrip1, hext, hsub1, hsub1,
      hsub3, hsub4, hsub5, hsub6, hsub7, hsub8, hsub9, hsplit, hfil, ← hOUTd]

/-- C9: the fuzzy-key normalizer is idempotent — for every string x,
normalize_for_fuzzy (normalize_for_fuzzy x) = normalize_for_fuzzy x; applying the
normalization (lower-casing, extension stripping, date removal, separator
collapsing, noise/short-token dropping) to an already-normalized string is a
no-op. -/
theorem c9_normalize_idempotent (x : String) :
    normalize_for_fuzzy (normalize_for_fuzzy x) = normalize_for_fuzzy x := by
  by_cases hx : x = ""
  · rw [hx]
    simp [normalize_for_fuzzy]
  · have hrep : normalize_for_fuzzy x = String.mk (stripWS (joinTok (List.filter keepTok
        (splitWS (subst m_seps (subst m_year4 (subst m_season (subst m_monthAbbr
          (subst m_monthFull (subst m_date4 (subst m_date3 (subst m_parenYear
            (subst m_parenYear (stripExt (stripWS (List.map lowerChar x.toList)))))))))))))))) := by
      simp only [normalize_for_fuzzy, if_neg hx]
    rw [hrep]
    apply norm_stage_idem
    intro c hc
    rcases substGo_chars m_parenYear _ _ c hc with rfl | h1
    · decide
    rcases substGo_chars m_parenYear _ _ c h1 with rfl | h2
    · decide
    have h3 : c ∈ stripWS (List.map lowerChar x.toList) := stripExt_sub h2
    have h4 : c ∈ List.map lowerChar x.toList := (stripWS_infx _).subset h3
    obtain ⟨d, _, rfl⟩ := List.mem_map.mp h4
    exact lowerChar_idem d
